import Mathlib

/-!
Verification of the stackl Ansible inventory plugin
(src/stackl/agent/agent/kubernetes/handlers/ansible_handler.py).

This file gives a shallow embedding of the inventory plugin embedded in
`stackl_plugin`: the group partitioner `create_groups`, the validation
helper `check_groups`, the secret resolvers `get_base64_secrets` and
`get_conjur_secrets`, the verify-flag normalization, and the per-service
reconciliation and publication logic of `InventoryModule.parse`.

Python dictionaries are modelled as insertion-ordered association lists
(`List (key × value)`), matching CPython semantics: a lookup finds the
unique entry for a key, an update mutates the entry in place, and a new
key is appended at the end.  The process abort `exit(1)` on exhaustion of
the host pool, and raised exceptions, are modelled with `Except`.
-/

set_option maxHeartbeats 1000000

namespace Stackl

/-- One `{host, target}` entry of a group, as appended by `create_groups`
(line 103-106 of the plugin source). -/
structure HostEntry where
  host : String
  target : String
deriving DecidableEq, Repr

/-- One element of the `stackl_inventory_groups` provisioning parameter:
a list of tags and a host count (`item["tags"]`, `item["count"]`). -/
structure GroupRule where
  tags : List String
  count : Nat
deriving DecidableEq, Repr

/-- The persisted group assignment `stack_instance.groups`: a Python dict
from tag to list of `{host, target}` entries, modelled as an
insertion-ordered association list. -/
abbrev GroupAssignment := List (String × List HostEntry)

/-- Dict lookup: the value stored for `tag`, if the key is present.
Models both `stackl_groups[tag]` and the `tag in stackl_groups` test. -/
def lookupG : GroupAssignment → String → Option (List HostEntry)
  | [], _ => none
  | (t, l) :: rest, tag => if t = tag then some l else lookupG rest tag

/-- One step of `groups[tag].append(host)` on a `defaultdict(list)`:
if the key is present its list is extended in place, otherwise the key is
created (at the end, in insertion order) holding the one-element list. -/
def dictAppend1 : GroupAssignment → String → HostEntry → GroupAssignment
  | [], tag, e => [(tag, [e])]
  | (t, l) :: rest, tag, e =>
    if t = tag then (t, l ++ [e]) :: rest else (t, l) :: dictAppend1 rest tag e

/-- The only failure of `create_groups`: the `IndexError` branch
(lines 107-109) that prints the error and calls `exit(1)`.  The spec
names this outcome `InsufficientHostsError`. -/
inductive PartitionError where
  | insufficientHosts
deriving DecidableEq, Repr

/-- The inner loop `for index in range(item["count"])` of `create_groups`
for one tag: reads `hosts[index]` for each index in the list, appending
`{host, target}` to the groups dict; an out-of-range index aborts
(modelling the `IndexError` / `exit(1)` path). -/
def appendIndices : GroupAssignment → String → List String → String → List Nat →
    Except PartitionError GroupAssignment
  | g, _, _, _, [] => .ok g
  | g, tag, hosts, target, i :: is =>
    match hosts[i]? with
    | none => .error .insufficientHosts
    | some h => appendIndices (dictAppend1 g tag ⟨h, target⟩) tag hosts target is

/-- `for index in range(item["count"]): groups[tag].append(...)` for one tag. -/
def addTag (g : GroupAssignment) (tag : String) (hosts : List String) (count : Nat)
    (target : String) : Except PartitionError GroupAssignment :=
  appendIndices g tag hosts target (List.range count)

/-- `for tag in item["tags"]`: run the per-tag inner loop over each tag of
a rule, against the same host list (the pool is only shrunk after the tag
loop, by `del hosts[0:item["count"]]`). -/
def addRuleTags : GroupAssignment → List String → List String → Nat → String →
    Except PartitionError GroupAssignment
  | g, [], _, _, _ => .ok g
  | g, tag :: tags, hosts, count, target =>
    match addTag g tag hosts count target with
    | .error e => .error e
    | .ok g2 => addRuleTags g2 tags hosts count target

/-- `del hosts[0:item["count"]]` (line 111): drop the first `count`
elements of the working pool (fewer if the pool is shorter). -/
def hostsDel (hosts : List String) (count : Nat) : List String := hosts.drop count

/-- The outer loop of `create_groups` over `stackl_inventory_groups`,
threading the groups dict and the destructively consumed host pool. -/
def create_groupsGo : GroupAssignment → List String → List GroupRule → String →
    Except PartitionError (GroupAssignment × List String)
  | g, hosts, [], _ => .ok (g, hosts)
  | g, hosts, item :: rest, target =>
    match addRuleTags g item.tags hosts item.count target with
    | .error e => .error e
    | .ok g2 => create_groupsGo g2 (hostsDel hosts item.count) rest target

/-- `create_groups(hosts, stackl_inventory_groups, infrastructure_target)`
(lines 96-112).  Returns the groups dict together with the final state of
the (destructively shrunk) host list; the error models the
`IndexError`-then-`exit(1)` path. -/
def create_groups (hosts : List String) (stackl_inventory_groups : List GroupRule)
    (infrastructure_target : String) :
    Except PartitionError (GroupAssignment × List String) :=
  create_groupsGo [] hosts stackl_inventory_groups infrastructure_target

/-- One `count_group_dict[tag] += group["count"]` step on a
`defaultdict(int)`, modelled on an insertion-ordered association list. -/
def tallyAdd : List (String × Nat) → String → Nat → List (String × Nat)
  | [], tag, c => [(tag, c)]
  | (t, n) :: rest, tag, c =>
    if t = tag then (t, n + c) :: rest else (t, n) :: tallyAdd rest tag c

/-- Lookup in the tally dict. -/
def lookupTally : List (String × Nat) → String → Option Nat
  | [], _ => none
  | (t, n) :: rest, tag => if t = tag then some n else lookupTally rest tag

/-- The first loop of `check_groups` (lines 85-87): tally, for every tag
occurrence in every rule, that rule then its count. -/
def countGroupDict (stackl_inventory_groups : List GroupRule) : List (String × Nat) :=
  stackl_inventory_groups.foldl
    (fun acc group => group.tags.foldl (fun acc2 tag => tallyAdd acc2 tag group.count) acc)
    []

/-- `check_groups(stackl_groups, stackl_inventory_groups, host_list)`
(lines 82-93): every tallied tag must be present in `stackl_groups` with
exactly `count * len(host_list)` entries. -/
def check_groups (stackl_groups : GroupAssignment)
    (stackl_inventory_groups : List GroupRule) (host_list : List String) : Bool :=
  let target_count := host_list.length
  (countGroupDict stackl_inventory_groups).all fun p =>
    match lookupG stackl_groups p.1 with
    | none => false
    | some l => l.length == p.2 * target_count

/-- Validation as worded by claim C4: for every tag of every rule, the
tag must be present in `current` with exactly `rule.count * totalHostCount`
entries, where `rule` is the rule the tag occurrence belongs to.  This
definition follows the words of the spec and is compared against the
source-derived `check_groups`. -/
def isValid_claim (current : GroupAssignment) (rules : List GroupRule)
    (totalHostCount : Nat) : Bool :=
  rules.all fun rule => rule.tags.all fun tag =>
    match lookupG current tag with
    | none => false
    | some l => l.length == rule.count * totalHostCount

/-- Spec-side description of the pool consumption of `create_groups`:
each rule is paired with the prefix of `rule.count` hosts it reads, and
the pool passed on to later rules is the pool with that prefix dropped. -/
def ruleHosts : List String → List GroupRule → List (GroupRule × List String)
  | _, [] => []
  | pool, r :: rs => (r, pool.take r.count) :: ruleHosts (pool.drop r.count) rs

/-- Spec-side description of the entries a tag receives from
`create_groups`: for each rule, one copy of the host block of that rule per
occurrence of the tag in the tag list of the rule, each host paired with the
target. -/
def assignedEntriesMul (pool : List String) (rules : List GroupRule)
    (target : String) (tag : String) : List HostEntry :=
  (ruleHosts pool rules).flatMap fun rb =>
    (List.replicate (rb.1.tags.count tag) (rb.2.map fun h => ⟨h, target⟩)).flatten

/-- Entries a tag receives when the tag list of every rule has no duplicates
(tags form a set, as the spec words it): the host block of the rule once if
the tag belongs to the rule, nothing otherwise. -/
def assignedEntries (pool : List String) (rules : List GroupRule)
    (target : String) (tag : String) : List HostEntry :=
  (ruleHosts pool rules).flatMap fun rb =>
    if tag ∈ rb.1.tags then rb.2.map (fun h => ⟨h, target⟩) else []

/-- Total demand of a rule list on the host pool, as the code consumes it:
the sum of the rule counts (each rule shrinks the pool by its count once,
however many tags it has). -/
def totalCount (rules : List GroupRule) : Nat := (rules.map (·.count)).sum

/-- Total number of entries a tag is owed across a rule list, counting a
rule once per occurrence of the tag in its tag list. -/
def sumCountMul (rules : List GroupRule) (tag : String) : Nat :=
  (rules.map fun r => r.tags.count tag * r.count).sum

/-- The `{host, target}` block a rule reads for each of its tags: the
first `count` hosts of the working pool at that rule. -/
def blockOf (hosts : List String) (count : Nat) (target : String) : List HostEntry :=
  (hosts.take count).map fun h => ⟨h, target⟩

/-- Appending a whole block of entries to one tag, entry by entry. -/
def dictAppendList (g : GroupAssignment) (tag : String) (es : List HostEntry) :
    GroupAssignment :=
  es.foldl (fun g2 e => dictAppend1 g2 tag e) g

/-- Appending the same block to each tag of a rule, in order. -/
def addBlock (g : GroupAssignment) (tags : List String) (es : List HostEntry) :
    GroupAssignment :=
  tags.foldl (fun g2 tag => dictAppendList g2 tag es) g

/-- The working pool left after a list of rules has consumed its prefixes. -/
def poolAfter (pool : List String) (rules : List GroupRule) : List String :=
  rules.foldl (fun p r => p.drop r.count) pool

/-- The tag/count pairs tallied by the first loop of `check_groups`,
flattened into a single list. -/
def pairsOf (rules : List GroupRule) : List (String × Nat) :=
  rules.flatMap fun r => r.tags.map fun t => (t, r.count)

/-- Folding a flat list of tag/count pairs into the tally dict. -/
def tallyList (acc : List (String × Nat)) (ps : List (String × Nat)) :
    List (String × Nat) :=
  ps.foldl (fun a p => tallyAdd a p.1 p.2) acc

/-- Total count contributed to one tag by a flat list of tag/count pairs. -/
def tallyWeight (ps : List (String × Nat)) (tag : String) : Nat :=
  (ps.map fun p => if p.1 = tag then p.2 else 0).sum

/-- Errors of secret resolution: the `AnsibleParserError` with the fixed
message raised by `get_base64_secrets` (line 135), and the raw
`IndexError` escaping `get_conjur_secrets` when a reference has no
`!var` marker (line 151). -/
inductive SecretResolutionError where
  | parserError (msg : String)
  | indexError
deriving DecidableEq, Repr

/-- Errors aborting one reconciliation pass: a partition failure, a
secret resolution failure, or the `TypeError` of calling `len(None)` when
a grouped service declares no host list. -/
inductive HandlerError where
  | partition (e : PartitionError)
  | secret (e : SecretResolutionError)
  | typeError
deriving DecidableEq, Repr

/-- A provisioning parameter value: a plain value, or the rule list
stored under the `stackl_inventory_groups` key. -/
inductive ParamValue where
  | str (s : String)
  | rules (rs : List GroupRule)
deriving DecidableEq, Repr

/-- The fields of a `stackl_client` service definition read by `parse`:
`hosts` (None modelled as `none`), the provisioning parameter dict, the
infrastructure target, and the optional `secrets` attribute. -/
structure ServiceDefinition where
  hosts : Option (List String)
  provisioning_parameters : List (String × ParamValue)
  infrastructure_target : String
  secrets : Option (List (String × String))
deriving DecidableEq, Repr

/-- Dict lookup in the provisioning parameters; also models the
membership test `"stackl_inventory_groups" in provisioning_parameters`. -/
def lookupParam : List (String × ParamValue) → String → Option ParamValue
  | [], _ => none
  | (k, v) :: rest, key => if k = key then some v else lookupParam rest key

/-- Extract the rule list from the `stackl_inventory_groups` value. -/
def getRules : ParamValue → List GroupRule
  | .rules rs => rs
  | .str _ => []

/-- The calls `parse` makes into the Ansible inventory builder. -/
inductive InvOp where
  | addGroup (name : String)
  | addHost (host : String) (group : String)
  | setVar (group : String) (key : String) (value : ParamValue)
deriving DecidableEq, Repr

/-- The secret resolver selected by the `secret_handler` option, seen by
`parse` as a function of the secret dict of the service. -/
abbrev SecretResolver :=
  List (String × String) → Except SecretResolutionError (List (String × String))

/-- The inventory operations emitted for one host entry of one group in
the grouped branch (lines 221-250): `add_host`, one `set_variable` per
provisioning parameter, then — if the service has secrets — one
`set_variable` per resolved secret (resolution is re-run per host). -/
def publishHostOps (resolve : SecretResolver) (item : String)
    (params : List (String × ParamValue)) (secrets : Option (List (String × String)))
    (e : HostEntry) : Except SecretResolutionError (List InvOp) :=
  let base := InvOp.addHost e.host item ::
    params.map fun kv => InvOp.setVar item kv.1 kv.2
  match secrets with
  | none => .ok base
  | some s =>
    match resolve s with
    | .error err => .error err
    | .ok m => .ok (base ++ m.map fun kv => InvOp.setVar item kv.1 (.str kv.2))

/-- The `for group in value:` loop over the entries of one group. -/
def publishEntries (resolve : SecretResolver) (item : String)
    (params : List (String × ParamValue)) (secrets : Option (List (String × String))) :
    List HostEntry → Except SecretResolutionError (List InvOp)
  | [] => .ok []
  | e :: es =>
    match publishHostOps resolve item params secrets e with
    | .error err => .error err
    | .ok ops1 =>
      match publishEntries resolve item params secrets es with
      | .error err => .error err
      | .ok ops2 => .ok (ops1 ++ ops2)

/-- The `for item, value in stack_instance.groups.items():` loop
(lines 219-250): `add_group` per group, then its host entries. -/
def publishGrouped (resolve : SecretResolver)
    (params : List (String × ParamValue)) (secrets : Option (List (String × String))) :
    GroupAssignment → Except SecretResolutionError (List InvOp)
  | [] => .ok []
  | (item, value) :: rest =>
    match publishEntries resolve item params secrets value with
    | .error err => .error err
    | .ok ops1 =>
      match publishGrouped resolve params secrets rest with
      | .error err => .error err
      | .ok ops2 => .ok (InvOp.addGroup item :: (ops1 ++ ops2))

/-- The grouped branch of `parse` (lines 199-250) for one service
definition: validate the persisted groups with `check_groups`; if
invalid, recompute with `create_groups` and persist the new assignment
(`put_stack_instance`, modelled as the list of remote writes); then
publish the final assignment.  Returns (writes, inventory ops, final
groups). -/
def reconcileGrouped (resolve : SecretResolver) (stGroups : GroupAssignment)
    (hosts : List String) (rules : List GroupRule) (target : String)
    (params : List (String × ParamValue)) (secrets : Option (List (String × String))) :
    Except HandlerError (List GroupAssignment × List InvOp × GroupAssignment) :=
  if check_groups stGroups rules hosts then
    match publishGrouped resolve params secrets stGroups with
    | .error e => .error (.secret e)
    | .ok ops => .ok ([], ops, stGroups)
  else
    match create_groups hosts rules target with
    | .error e => .error (.partition e)
    | .ok (g, _) =>
      match publishGrouped resolve params secrets g with
      | .error e => .error (.secret e)
      | .ok ops => .ok ([g], ops, g)

/-- The simple per-service publication branch of `parse`
(lines 251-284): one group named after the service, its declared hosts
(or the synthetic `service + "_" + str(index)` host when the host list is
`None` or empty), the `infrastructure_target` variable, every
provisioning parameter, and — if the service has secrets — every
resolved secret. -/
def publishSimple (resolve : SecretResolver) (service : String) (index : Nat)
    (sd : ServiceDefinition) : Except SecretResolutionError (List InvOp) :=
  let hostOps := match sd.hosts with
    | some (h :: hs) => (h :: hs).map fun h2 => InvOp.addHost h2 service
    | _ => [InvOp.addHost (service ++ "_" ++ toString index) service]
  let headOps := InvOp.addGroup service :: (hostOps ++
    ([InvOp.setVar service "infrastructure_target" (.str sd.infrastructure_target)] ++
    sd.provisioning_parameters.map (fun kv => InvOp.setVar service kv.1 kv.2)))
  match sd.secrets with
  | none => .ok headOps
  | some s =>
    match resolve s with
    | .error e => .error e
    | .ok m => .ok (headOps ++ m.map fun kv => InvOp.setVar service kv.1 (.str kv.2))

/-- The body of `parse` for one service definition (lines 199-284): the
grouped branch when the `stackl_inventory_groups` parameter is declared
(failing like `len(None)` when no host list exists), the simple branch
otherwise. -/
def serviceStep (resolve : SecretResolver) (service : String) (index : Nat)
    (sd : ServiceDefinition) (stGroups : GroupAssignment) :
    Except HandlerError (List GroupAssignment × List InvOp × GroupAssignment) :=
  match lookupParam sd.provisioning_parameters "stackl_inventory_groups" with
  | some pv =>
    match sd.hosts with
    | none => .error .typeError
    | some hs =>
      reconcileGrouped resolve stGroups hs (getRules pv) sd.infrastructure_target
        sd.provisioning_parameters sd.secrets
  | none =>
    match publishSimple resolve service index sd with
    | .error e => .error (.secret e)
    | .ok ops => .ok ([], ops, stGroups)

/-- One character of the standard base64 alphabet, from a 6-bit value
(the encoding table used by `base64.b64encode`). -/
def charOfSextet (n : Nat) : Char :=
  if n < 26 then Char.ofNat (65 + n)
  else if n < 52 then Char.ofNat (97 + (n - 26))
  else if n < 62 then Char.ofNat (48 + (n - 52))
  else if n = 62 then '+'
  else '/'

/-- The 6-bit value of a base64 alphabet character, `none` outside the
alphabet. -/
def sextetOfChar (c : Char) : Option Nat :=
  let n := c.toNat
  if 65 ≤ n ∧ n ≤ 90 then some (n - 65)
  else if 97 ≤ n ∧ n ≤ 122 then some (n - 97 + 26)
  else if 48 ≤ n ∧ n ≤ 57 then some (n - 48 + 52)
  else if n = 43 then some 62
  else if n = 47 then some 63
  else none

/-- The base64 body (without padding) of a byte list: four characters per
three bytes, a final chunk of one or two bytes giving two or three
characters, as produced by `base64.b64encode`. -/
def b64encodeBody : List Nat → List Char
  | [] => []
  | [b1] => [charOfSextet (b1 / 4), charOfSextet (b1 % 4 * 16)]
  | [b1, b2] => [charOfSextet (b1 / 4), charOfSextet (b1 % 4 * 16 + b2 / 16),
      charOfSextet (b2 % 16 * 4)]
  | b1 :: b2 :: b3 :: rest =>
    charOfSextet (b1 / 4) :: charOfSextet (b1 % 4 * 16 + b2 / 16) ::
    charOfSextet (b2 % 16 * 4 + b3 / 64) :: charOfSextet (b3 % 64) ::
    b64encodeBody rest

/-- The `=` padding `base64.b64encode` appends. -/
def b64pad (bytes : List Nat) : List Char :=
  match bytes.length % 3 with
  | 1 => ['=', '=']
  | 2 => ['=']
  | _ => []

/-- `base64.b64encode` on a byte list, producing characters. -/
def b64encode (bytes : List Nat) : List Char := b64encodeBody bytes ++ b64pad bytes

/-- Strip the trailing `=` padding from an encoded string. -/
def stripPadding (s : List Char) : List Char :=
  (s.reverse.dropWhile fun c => c == '=').reverse

/-- The quad state machine of `binascii.a2b_base64` in its default
lenient mode: `quad_pos` counts data characters within the current group
of four, `leftchar` carries their leftover bits, and `pads` counts the
pad characters seen since the last data character.  A character outside
the alphabet is skipped.  A `=` is ignored at quad position 0 or 1; at
quad position 2 or 3 it completes the data once `quad_pos + pads`
reaches four (two pads close a group of two characters, one pad a group
of three), ending the scan with the bytes emitted so far.  Leftover data
characters at the end of the input — a final quad position other than
zero — are the `binascii` padding error. -/
def a2b_base64 : List Char → Nat → Nat → Nat → List Nat → Option (List Nat)
  | [], quad_pos, _, _, acc => if quad_pos = 0 then some acc else none
  | c :: rest, quad_pos, leftchar, pads, acc =>
    if c = '=' then
      if 2 ≤ quad_pos then
        if 4 ≤ quad_pos + pads + 1 then some acc
        else a2b_base64 rest quad_pos leftchar (pads + 1) acc
      else a2b_base64 rest quad_pos leftchar pads acc
    else
      match sextetOfChar c with
      | none => a2b_base64 rest quad_pos leftchar pads acc
      | some v =>
        match quad_pos with
        | 0 => a2b_base64 rest 1 v 0 acc
        | 1 => a2b_base64 rest 2 (v % 16) 0 (acc ++ [leftchar * 4 + v / 16])
        | 2 => a2b_base64 rest 3 (v % 4) 0 (acc ++ [leftchar * 16 + v / 4])
        | _ => a2b_base64 rest 0 0 0 (acc ++ [leftchar * 64 + v])

/-- `base64.b64decode(s)` for a `str` argument in its default lenient
mode, as CPython implements it: a string with a character outside the
ASCII range raises `ValueError` before any decoding; otherwise the
characters run through the `a2b_base64` quad state machine. -/
def b64decode_py (s : List Char) : Option (List Nat) :=
  if ∀ c ∈ s, c.toNat < 128 then a2b_base64 s 0 0 0 [] else none

/-- UTF-8 encoding of one code point (`str.encode("utf-8")`). -/
def utf8EncodeChar (n : Nat) : List Nat :=
  if n < 0x80 then [n]
  else if n < 0x800 then [0xC0 + n / 64, 0x80 + n % 64]
  else if n < 0x10000 then
    [0xE0 + n / 4096, 0x80 + n / 64 % 64, 0x80 + n % 64]
  else
    [0xF0 + n / 262144, 0x80 + n / 4096 % 64, 0x80 + n / 64 % 64, 0x80 + n % 64]

/-- UTF-8 encoding of a character list. -/
def utf8Encode (cs : List Char) : List Nat := cs.flatMap fun c => utf8EncodeChar c.toNat

/-- A UTF-8 continuation byte. -/
abbrev isCont (b : Nat) : Prop := 0x80 ≤ b ∧ b < 0xC0

/-- Decode the first UTF-8 sequence of a byte list into its code point
and the remaining bytes; `none` on an empty input, a stray continuation
byte, a bad lead byte, a truncated sequence, an overlong form, a
surrogate or an out-of-range value. -/
def utf8DecodeOne : List Nat → Option (Nat × List Nat)
  | [] => none
  | b :: rest =>
    if b < 0x80 then some (b, rest)
    else if b < 0xC0 then none
    else if b < 0xE0 then
      match rest with
      | b1 :: rest1 =>
        if isCont b1 ∧ 0x80 ≤ (b - 0xC0) * 64 + (b1 - 0x80) then
          some ((b - 0xC0) * 64 + (b1 - 0x80), rest1)
        else none
      | [] => none
    else if b < 0xF0 then
      match rest with
      | b1 :: b2 :: rest2 =>
        if isCont b1 ∧ isCont b2 ∧
            0x800 ≤ (b - 0xE0) * 4096 + (b1 - 0x80) * 64 + (b2 - 0x80) ∧
            ((b - 0xE0) * 4096 + (b1 - 0x80) * 64 + (b2 - 0x80) < 0xD800 ∨
             0xDFFF < (b - 0xE0) * 4096 + (b1 - 0x80) * 64 + (b2 - 0x80)) then
          some ((b - 0xE0) * 4096 + (b1 - 0x80) * 64 + (b2 - 0x80), rest2)
        else none
      | _ => none
    else if b < 0xF5 then
      match rest with
      | b1 :: b2 :: b3 :: rest3 =>
        if isCont b1 ∧ isCont b2 ∧ isCont b3 ∧
            0x10000 ≤ (b - 0xF0) * 262144 + (b1 - 0x80) * 4096 + (b2 - 0x80) * 64 +
              (b3 - 0x80) ∧
            (b - 0xF0) * 262144 + (b1 - 0x80) * 4096 + (b2 - 0x80) * 64 + (b3 - 0x80) <
              0x110000 then
          some ((b - 0xF0) * 262144 + (b1 - 0x80) * 4096 + (b2 - 0x80) * 64 +
            (b3 - 0x80), rest3)
        else none
      | _ => none
    else none

/-- Decode UTF-8 sequences one by one, with a step budget: each step
consumes at least one byte, so a budget of the byte count is enough. -/
def utf8DecodeFuel : Nat → List Nat → Option (List Char)
  | _, [] => some []
  | 0, _ :: _ => none
  | fuel + 1, b :: rest =>
    match utf8DecodeOne (b :: rest) with
    | none => none
    | some (v, rest2) => (utf8DecodeFuel fuel rest2).map fun cs => Char.ofNat v :: cs

/-- Strict UTF-8 decoding (`bytes.decode("utf-8")`): decode sequences one
by one, failing as `utf8DecodeOne` does. -/
def utf8Decode (l : List Nat) : Option (List Char) := utf8DecodeFuel l.length l

/-- The Unicode whitespace characters stripped by Python `str.strip` and
`str.rstrip`. -/
def isPySpace (c : Char) : Bool :=
  let n := c.toNat
  (0x9 ≤ n && n ≤ 0xD) || n == 0x20 || (0x1C ≤ n && n ≤ 0x1F) || n == 0x85 ||
  n == 0xA0 || n == 0x1680 || (0x2000 ≤ n && n ≤ 0x200A) || n == 0x2028 ||
  n == 0x2029 || n == 0x202F || n == 0x205F || n == 0x3000

/-- Python `str.rstrip()` on a character list. -/
def pyRstripList (cs : List Char) : List Char :=
  (cs.reverse.dropWhile isPySpace).reverse

/-- Python `str.rstrip()`. -/
def pyRstrip (s : String) : String := String.mk (pyRstripList s.data)

/-- Python `str.strip()`. -/
def pyStrip (s : String) : String :=
  String.mk (pyRstripList (s.data.dropWhile isPySpace))

/-- `base64.b64decode(secret + "===").decode("utf-8").rstrip()` for one
secret reference (lines 132-133); `none` on any decode failure. -/
def decodeSecret (secret : String) : Option String :=
  match b64decode_py (secret.data ++ ['=', '=', '=']) with
  | none => none
  | some bytes =>
    match utf8Decode bytes with
    | none => none
    | some cs => some (String.mk (pyRstripList cs))

/-- `get_base64_secrets(service)` (lines 127-136): decode every secret of
the service, raising the fixed `AnsibleParserError("Could not decode
secret")` as soon as one is undecodable — no partial map survives. -/
def get_base64_secrets : List (String × String) →
    Except SecretResolutionError (List (String × String))
  | [] => .ok []
  | (key, secret) :: rest =>
    match decodeSecret secret with
    | none => .error (.parserError "Could not decode secret")
    | some v =>
      match get_base64_secrets rest with
      | .error e => .error e
      | .ok m => .ok ((key, v) :: m)

/-- The claim-side construction of C6: encode a string as UTF-8, then
base64, then strip the padding. -/
def b64encodeNoPad (s : String) : String :=
  String.mk (stripPadding (b64encode (utf8Encode s.data)))

/-- A Python value for the conjur `verify` option: a string, a bool, or
something else (kept opaque). -/
inductive PyVal where
  | pyStr (s : String)
  | pyBool (b : Bool)
  | pyNone
  | pyInt (n : Int)
deriving DecidableEq, Repr

/-- Python `str.lower()` on one character, for the ASCII letters the
`"true"`/`"false"` comparison can meet. -/
def pyLowerChar (c : Char) : Char :=
  if 65 ≤ c.toNat ∧ c.toNat ≤ 90 then Char.ofNat (c.toNat + 32) else c

/-- Python `str.lower()` (ASCII range). -/
def pyLower (s : String) : String := String.mk (s.data.map pyLowerChar)

/-- Lines 142-145 of the plugin: a string-typed `verify` equal to
`"false"` or `"true"` after lowercasing is replaced by the corresponding
boolean; any other value is left unchanged. -/
def normalizeVerify (verify : PyVal) : PyVal :=
  match verify with
  | .pyStr s =>
    if pyLower s = "false" then .pyBool false
    else if pyLower s = "true" then .pyBool true
    else .pyStr s
  | v => v

/-- The HTTP layer of `get_conjur_secrets`: the request url, the token
material for the authorization header, and the verify flag as passed to
`requests.get`, producing the response body `r.text`. -/
abbrev ConjurHttp := String → String → PyVal → String

/-- Whether the second list starts with the first. -/
def leadsWith : List Char → List Char → Bool
  | [], _ => true
  | _ :: _, [] => false
  | a :: as, b :: bs => a == b && leadsWith as bs

/-- Scan a string left to right, cutting a piece at every non-overlapping
occurrence of the separator; `acc` holds the current piece reversed, and
the fuel (at least the list length) pays one for every character examined
or skipped. -/
def splitOnFuel (sep : List Char) : Nat → List Char → List Char → List (List Char)
  | _, acc, [] => [acc.reverse]
  | 0, acc, l => [acc.reverse ++ l]
  | fuel + 1, acc, c :: rest =>
    if leadsWith sep (c :: rest) then
      acc.reverse :: splitOnFuel sep fuel [] ((c :: rest).drop sep.length)
    else
      splitOnFuel sep fuel (c :: acc) rest

/-- Python `str.split(sep)` for a non-empty separator. -/
def pySplit (s sep : String) : List String :=
  if sep.data = [] then [s]
  else (splitOnFuel sep.data s.data.length [] s.data).map String.mk

/-- The secret loop of `get_conjur_secrets` (lines 150-159), with file
and network I/O abstracted into `token` and `http`: the path is piece 1
of the reference split on `"!var"` (raising `IndexError` when the marker
is absent), stripped; the response body is stored without any status
check. -/
def get_conjur_secretsGo (http : ConjurHttp) (address account token : String)
    (verify : PyVal) : List (String × String) →
    Except SecretResolutionError (List (String × String))
  | [] => .ok []
  | (key, secret_path) :: rest =>
    match pySplit secret_path "!var" with
    | _ :: p :: _ =>
      let path := pyStrip p
      let value := http (address ++ "/secrets/" ++ account ++ "/variable/" ++ path)
        token verify
      match get_conjur_secretsGo http address account token verify rest with
      | .error e => .error e
      | .ok m => .ok ((key, value) :: m)
    | _ => .error .indexError

/-- `get_conjur_secrets(service, address, account, token_path, verify)`
(lines 139-160): normalize the verify flag, then resolve every secret
reference through the HTTP layer. -/
def get_conjur_secrets (http : ConjurHttp) (address account token : String)
    (verify : PyVal) (secrets : List (String × String)) :
    Except SecretResolutionError (List (String × String)) :=
  get_conjur_secretsGo http address account token (normalizeVerify verify) secrets

theorem lookupG_dictAppend1 (g : GroupAssignment) (tag : String) (e : HostEntry)
    (tag2 : String) :
    lookupG (dictAppend1 g tag e) tag2 =
      if tag2 = tag then some ((lookupG g tag).getD [] ++ [e]) else lookupG g tag2 := by
  induction g with
  | nil =>
    by_cases h : tag2 = tag
    · simp [dictAppend1, lookupG, h]
    · simp [dictAppend1, lookupG, h, Ne.symm h]
  | cons p rest ih =>
    obtain ⟨t, l⟩ := p
    by_cases ht : t = tag
    · subst ht
      by_cases h2 : tag2 = t
      · simp [dictAppend1, lookupG, h2]
      · simp [dictAppend1, lookupG, h2, Ne.symm h2]
    · by_cases h2 : t = tag2
      · subst h2
        simp [dictAppend1, lookupG, ht, fun h : t = tag => ht h]
      · simp [dictAppend1, lookupG, ht, h2, ih]

theorem dictAppendList_nil (g : GroupAssignment) (tag : String) :
    dictAppendList g tag [] = g := rfl

theorem lookupG_dictAppendList (g : GroupAssignment) (tag : String)
    (es : List HostEntry) (tag2 : String) :
    lookupG (dictAppendList g tag es) tag2 =
      if tag2 = tag ∧ es ≠ [] then some ((lookupG g tag).getD [] ++ es)
      else lookupG g tag2 := by
  induction es generalizing g with
  | nil => simp [dictAppendList_nil]
  | cons e rest ih =>
    have hstep : dictAppendList g tag (e :: rest) =
        dictAppendList (dictAppend1 g tag e) tag rest := rfl
    rw [hstep, ih]
    by_cases h2 : tag2 = tag
    · subst h2
      rcases rest with _ | ⟨e2, rest2⟩
      · simp [lookupG_dictAppend1]
      · simp [lookupG_dictAppend1]
    · simp [h2, lookupG_dictAppend1]

theorem getD_lookupG_addBlock (g : GroupAssignment) (tags : List String)
    (es : List HostEntry) (tag : String) :
    (lookupG (addBlock g tags es) tag).getD [] =
      (lookupG g tag).getD [] ++ (List.replicate (tags.count tag) es).flatten := by
  induction tags generalizing g with
  | nil => simp [addBlock]
  | cons t rest ih =>
    have hstep : addBlock g (t :: rest) es = addBlock (dictAppendList g t es) rest es := rfl
    rw [hstep, ih]
    by_cases h : t = tag
    · subst h
      rcases hes : es with _ | ⟨e, es2⟩
      · simp [lookupG_dictAppendList]
      · rw [← hes]
        have : es ≠ [] := by simp [hes]
        simp [lookupG_dictAppendList, this, List.count_cons]
        rw [List.replicate_succ, List.flatten_cons]
    · have hcnt : (t :: rest).count tag = rest.count tag := by
        simp [List.count_cons, h, Ne.symm h]
      rw [hcnt]
      have : ¬(tag = t ∧ es ≠ []) := fun hc => h hc.1.symm
      simp [lookupG_dictAppendList, this]

theorem isSome_lookupG_addBlock (g : GroupAssignment) (tags : List String)
    (es : List HostEntry) (tag : String) :
    (lookupG (addBlock g tags es) tag).isSome ↔
      (lookupG g tag).isSome ∨ (tag ∈ tags ∧ es ≠ []) := by
  induction tags generalizing g with
  | nil => simp [addBlock]
  | cons t rest ih =>
    have hstep : addBlock g (t :: rest) es = addBlock (dictAppendList g t es) rest es := rfl
    rw [hstep, ih]
    by_cases h : tag = t
    · subst h
      rcases hes : es with _ | ⟨e, es2⟩
      · simp [lookupG_dictAppendList]
      · rw [← hes]
        have hne : es ≠ [] := by simp [hes]
        simp [lookupG_dictAppendList, hne]
    · have : ¬(tag = t ∧ es ≠ []) := fun hc => h hc.1
      simp [lookupG_dictAppendList, this, h]

theorem appendIndices_append (g : GroupAssignment) (tag : String)
    (hosts : List String) (target : String) (is1 is2 : List Nat) :
    appendIndices g tag hosts target (is1 ++ is2) =
      match appendIndices g tag hosts target is1 with
      | .ok g2 => appendIndices g2 tag hosts target is2
      | .error e => .error e := by
  induction is1 generalizing g with
  | nil => simp [appendIndices]
  | cons i rest ih =>
    simp only [List.cons_append, appendIndices]
    rcases h : hosts[i]? with _ | h'
    · simp
    · simp [ih]

theorem addTag_eq (g : GroupAssignment) (tag : String) (hosts : List String)
    (count : Nat) (target : String) :
    addTag g tag hosts count target =
      if count ≤ hosts.length then .ok (dictAppendList g tag (blockOf hosts count target))
      else .error .insufficientHosts := by
  induction count generalizing g with
  | zero => simp [addTag, appendIndices, blockOf, dictAppendList_nil, List.range_zero]
  | succ n ih =>
    have hrange : List.range (n + 1) = List.range n ++ [n] := by rw [List.range_succ]
    rw [addTag, hrange, appendIndices_append]
    rw [show appendIndices g tag hosts target (List.range n) = addTag g tag hosts n target
      from rfl, ih]
    by_cases h1 : n ≤ hosts.length
    · by_cases h2 : n < hosts.length
      · have hidx : hosts[n]? = some (hosts.get ⟨n, h2⟩) := by
          exact List.getElem?_eq_getElem h2
        simp only [if_pos h1, if_pos (by omega : n + 1 ≤ hosts.length)]
        simp only [appendIndices, hidx]
        have hblock : blockOf hosts (n + 1) target =
            blockOf hosts n target ++ [⟨hosts.get ⟨n, h2⟩, target⟩] := by
          unfold blockOf
          rw [List.take_succ, hidx]
          simp only [Option.toList_some, List.map_append, List.map_cons, List.map_nil]
        rw [hblock]
        simp [dictAppendList, List.foldl_append]
      · have hn : n = hosts.length := by omega
        have hidx : hosts[n]? = none := by
          simp [List.getElem?_eq_none_iff]; omega
        simp only [if_pos h1, if_neg (by omega : ¬ n + 1 ≤ hosts.length)]
        simp [appendIndices, hidx]
    · simp only [if_neg h1, if_neg (by omega : ¬ n + 1 ≤ hosts.length)]

theorem addRuleTags_eq (g : GroupAssignment) (tags : List String)
    (hosts : List String) (count : Nat) (target : String) :
    addRuleTags g tags hosts count target =
      if count ≤ hosts.length ∨ tags = [] then
        .ok (addBlock g tags (blockOf hosts count target))
      else .error .insufficientHosts := by
  induction tags generalizing g with
  | nil => simp [addRuleTags, addBlock]
  | cons t rest ih =>
    by_cases h : count ≤ hosts.length
    · simp only [addRuleTags, addTag_eq, if_pos h, ih]
      simp only [if_pos (Or.inl h)]
      rfl
    · simp only [addRuleTags, addTag_eq, if_neg h]
      simp [h]

/-- On success, the final lookup of any tag extends the accumulated one by
exactly the spec-side entry list `assignedEntriesMul`. -/
theorem create_groupsGo_getD (rules : List GroupRule) (g : GroupAssignment)
    (pool : List String) (target : String) (gfin : GroupAssignment)
    (rest : List String)
    (hok : create_groupsGo g pool rules target = .ok (gfin, rest)) (tag : String) :
    (lookupG gfin tag).getD [] =
      (lookupG g tag).getD [] ++ assignedEntriesMul pool rules target tag := by
  induction rules generalizing g pool with
  | nil =>
    simp [create_groupsGo] at hok
    simp [hok.1, assignedEntriesMul, ruleHosts]
  | cons r rs ih =>
    simp only [create_groupsGo, addRuleTags_eq] at hok
    by_cases h : r.count ≤ pool.length ∨ r.tags = []
    · rw [if_pos h] at hok
      have := ih _ _ hok
      rw [this, getD_lookupG_addBlock]
      simp [assignedEntriesMul, ruleHosts, blockOf, hostsDel, List.flatMap_cons,
        List.append_assoc]
    · rw [if_neg h] at hok
      exact absurd hok (by simp)

/-- On success, a tag is a key of the result exactly when it was already a
key of the accumulator or some rule mentions it with a positive count. -/
theorem create_groupsGo_isSome (rules : List GroupRule) (g : GroupAssignment)
    (pool : List String) (target : String) (gfin : GroupAssignment)
    (rest : List String)
    (hok : create_groupsGo g pool rules target = .ok (gfin, rest)) (tag : String) :
    (lookupG gfin tag).isSome ↔
      (lookupG g tag).isSome ∨ ∃ r ∈ rules, tag ∈ r.tags ∧ 1 ≤ r.count := by
  induction rules generalizing g pool with
  | nil =>
    simp [create_groupsGo] at hok
    simp [hok.1]
  | cons r rs ih =>
    simp only [create_groupsGo, addRuleTags_eq] at hok
    by_cases h : r.count ≤ pool.length ∨ r.tags = []
    · rw [if_pos h] at hok
      rw [ih _ _ hok, isSome_lookupG_addBlock]
      constructor
      · rintro ((hg | ⟨hmem, hne⟩) | ⟨r2, hr2, hmem2, hc2⟩)
        · exact Or.inl hg
        · refine Or.inr ⟨r, by simp, hmem, ?_⟩
          rcases Nat.eq_zero_or_pos r.count with hc | hc
          · exfalso; apply hne; simp [blockOf, hc]
          · exact hc
        · exact Or.inr ⟨r2, by simp [hr2], hmem2, hc2⟩
      · rintro (hg | ⟨r2, hr2, hmem2, hc2⟩)
        · exact Or.inl (Or.inl hg)
        · rcases List.mem_cons.mp hr2 with rfl | hr2'
          · refine Or.inl (Or.inr ⟨hmem2, ?_⟩)
            have hle : r2.count ≤ pool.length := by
              rcases h with h | h
              · exact h
              · exact absurd h (by intro hnil; rw [hnil] at hmem2; simp at hmem2)
            have : pool.take r2.count ≠ [] := by
              have : (pool.take r2.count).length = r2.count := by
                simp [List.length_take]; omega
              intro hnil; rw [hnil] at this; simp at this; omega
            simp only [blockOf, ne_eq, List.map_eq_nil_iff]
            exact this
          · exact Or.inr ⟨r2, hr2', hmem2, hc2⟩
    · rw [if_neg h] at hok
      exact absurd hok (by simp)

/-- On success, a rule with at least one tag read exactly its count of
hosts: its block in `ruleHosts` has length `count`. -/
theorem create_groupsGo_blockLength (rules : List GroupRule) (g : GroupAssignment)
    (pool : List String) (target : String) (gfin : GroupAssignment)
    (rest : List String)
    (hok : create_groupsGo g pool rules target = .ok (gfin, rest)) :
    ∀ rb ∈ ruleHosts pool rules, rb.1.tags ≠ [] → rb.2.length = rb.1.count := by
  induction rules generalizing g pool with
  | nil => simp [ruleHosts]
  | cons r rs ih =>
    simp only [create_groupsGo, addRuleTags_eq] at hok
    by_cases h : r.count ≤ pool.length ∨ r.tags = []
    · rw [if_pos h] at hok
      intro rb hrb hne
      simp only [ruleHosts, List.mem_cons] at hrb
      rcases hrb with rfl | hrb'
      · have hle : r.count ≤ pool.length := by
          rcases h with h | h
          · exact h
          · exact absurd h hne
        simp [List.length_take]; omega
      · exact ih _ _ hok rb hrb' hne
    · rw [if_neg h] at hok
      exact absurd hok (by simp)

/-- On success, the pool left over is the input pool with the count of
every rule dropped in order. -/
theorem create_groupsGo_rest (rules : List GroupRule) (g : GroupAssignment)
    (pool : List String) (target : String) (gfin : GroupAssignment)
    (rest : List String)
    (hok : create_groupsGo g pool rules target = .ok (gfin, rest)) :
    rest = poolAfter pool rules := by
  induction rules generalizing g pool with
  | nil =>
    simp [create_groupsGo] at hok
    simp [hok.2, poolAfter]
  | cons r rs ih =>
    simp only [create_groupsGo, addRuleTags_eq] at hok
    by_cases h : r.count ≤ pool.length ∨ r.tags = []
    · rw [if_pos h] at hok
      exact ih _ _ hok
    · rw [if_neg h] at hok
      exact absurd hok (by simp)

/-- A pool shortfall at some rule with at least one tag makes
`create_groupsGo` fail, whatever happens at the other rules. -/
theorem create_groupsGo_error (rules : List GroupRule) (g : GroupAssignment)
    (pool : List String) (target : String)
    (hbad : ∃ i, ∃ h : i < rules.length, (rules.get ⟨i, h⟩).tags ≠ [] ∧
      (poolAfter pool (rules.take i)).length < (rules.get ⟨i, h⟩).count) :
    create_groupsGo g pool rules target = .error .insufficientHosts := by
  induction rules generalizing g pool with
  | nil =>
    obtain ⟨i, h, _⟩ := hbad
    exact absurd h (by simp)
  | cons r rs ih =>
    obtain ⟨i, hi, hne, hlt⟩ := hbad
    rcases i with _ | j
    · simp only [List.take_zero, poolAfter, List.foldl_nil, List.get] at hlt hne
      simp only [create_groupsGo, addRuleTags_eq]
      rw [if_neg]
      push_neg
      exact ⟨by omega, hne⟩
    · simp only [create_groupsGo, addRuleTags_eq]
      by_cases h : r.count ≤ pool.length ∨ r.tags = []
      · rw [if_pos h]
        apply ih
        refine ⟨j, by simpa using hi, hne, ?_⟩
        simpa [poolAfter, List.take_cons] using hlt
      · rw [if_neg h]

theorem countGroupDict_eq_tallyList (rules : List GroupRule) :
    countGroupDict rules = tallyList [] (pairsOf rules) := by
  suffices h : ∀ acc, rules.foldl
      (fun acc group => group.tags.foldl (fun acc2 tag => tallyAdd acc2 tag group.count) acc)
      acc = tallyList acc (pairsOf rules) from h []
  induction rules with
  | nil => intro acc; simp [pairsOf, tallyList]
  | cons r rs ih =>
    intro acc
    simp only [List.foldl_cons, pairsOf, List.flatMap_cons]
    rw [show (r.tags.map fun t => (t, r.count)) ++ rs.flatMap (fun r => r.tags.map fun t => (t, r.count)) =
      (r.tags.map fun t => (t, r.count)) ++ pairsOf rs from rfl]
    rw [tallyList, List.foldl_append]
    rw [← tallyList, ← tallyList, ← ih]
    congr 1
    rw [tallyList, List.foldl_map]

theorem lookupTally_tallyAdd (acc : List (String × Nat)) (t : String) (c : Nat)
    (tag : String) :
    lookupTally (tallyAdd acc t c) tag =
      if tag = t then some ((lookupTally acc t).getD 0 + c) else lookupTally acc tag := by
  induction acc with
  | nil =>
    by_cases h : tag = t
    · simp [tallyAdd, lookupTally, h]
    · simp [tallyAdd, lookupTally, h, Ne.symm h]
  | cons p rest ih =>
    obtain ⟨t2, n⟩ := p
    by_cases ht : t2 = t
    · subst ht
      by_cases h2 : tag = t2
      · simp [tallyAdd, lookupTally, h2]
      · simp [tallyAdd, lookupTally, h2, Ne.symm h2]
    · by_cases h2 : t2 = tag
      · subst h2
        simp [tallyAdd, lookupTally, ht, fun h : t2 = t => ht h]
      · simp [tallyAdd, lookupTally, ht, h2, ih]

theorem lookupTally_tallyList (ps : List (String × Nat)) (acc : List (String × Nat))
    (tag : String) :
    lookupTally (tallyList acc ps) tag =
      if (lookupTally acc tag).isSome ∨ tag ∈ ps.map Prod.fst then
        some ((lookupTally acc tag).getD 0 + tallyWeight ps tag)
      else none := by
  induction ps generalizing acc with
  | nil =>
    cases h : lookupTally acc tag <;> simp [tallyList, tallyWeight, h]
  | cons p ps ih =>
    obtain ⟨t2, c2⟩ := p
    have hstep : tallyList acc ((t2, c2) :: ps) = tallyList (tallyAdd acc t2 c2) ps := rfl
    rw [hstep, ih]
    by_cases h : tag = t2
    · subst h
      simp only [lookupTally_tallyAdd, if_pos rfl, tallyWeight, List.map_cons,
        List.sum_cons, if_pos rfl]
      cases hacc : lookupTally acc tag <;>
        simp [hacc, tallyWeight, Nat.add_assoc]
    · simp only [lookupTally_tallyAdd, if_neg h]
      have hw : tallyWeight ((t2, c2) :: ps) tag = tallyWeight ps tag := by
        simp only [tallyWeight, List.map_cons, List.sum_cons]
        rw [if_neg (fun hh : t2 = tag => h hh.symm)]
        simp
      rw [hw]
      have hcond : ((lookupTally acc tag).isSome = true ∨
          tag ∈ ((t2, c2) :: ps).map Prod.fst) ↔
          ((lookupTally acc tag).isSome = true ∨ tag ∈ ps.map Prod.fst) := by
        simp [List.mem_cons, h]
      by_cases hin : (lookupTally acc tag).isSome = true ∨ tag ∈ ps.map Prod.fst
      · rw [if_pos hin, if_pos (hcond.mpr hin)]
      · rw [if_neg hin, if_neg (fun hc => hin (hcond.mp hc))]

theorem keys_tallyAdd (acc : List (String × Nat)) (t : String) (c : Nat) :
    (tallyAdd acc t c).map Prod.fst =
      if t ∈ acc.map Prod.fst then acc.map Prod.fst else acc.map Prod.fst ++ [t] := by
  induction acc with
  | nil => simp [tallyAdd]
  | cons p rest ih =>
    obtain ⟨t2, n⟩ := p
    by_cases h : t2 = t
    · subst h; simp [tallyAdd]
    · have hne : ¬ t = t2 := fun hh => h hh.symm
      simp only [tallyAdd, if_neg h, List.map_cons, ih]
      by_cases h2 : t ∈ rest.map Prod.fst
      · simp [h2, List.mem_cons, hne]
      · simp [h2, List.mem_cons, hne]

theorem keysNodup_tallyAdd (acc : List (String × Nat)) (t : String) (c : Nat)
    (hn : (acc.map Prod.fst).Nodup) : ((tallyAdd acc t c).map Prod.fst).Nodup := by
  rw [keys_tallyAdd]
  by_cases h : t ∈ acc.map Prod.fst
  · simpa [h] using hn
  · simp [h, List.nodup_append, hn]

theorem keysNodup_tallyList (ps : List (String × Nat)) (acc : List (String × Nat))
    (hn : (acc.map Prod.fst).Nodup) : ((tallyList acc ps).map Prod.fst).Nodup := by
  induction ps generalizing acc with
  | nil => exact hn
  | cons p ps ih => exact ih _ (keysNodup_tallyAdd _ _ _ hn)

theorem mem_of_lookupTally (l : List (String × Nat)) (tag : String) (c : Nat)
    (h : lookupTally l tag = some c) : (tag, c) ∈ l := by
  induction l with
  | nil => simp [lookupTally] at h
  | cons p rest ih =>
    obtain ⟨t, n⟩ := p
    by_cases ht : t = tag
    · subst ht
      simp [lookupTally] at h
      simp [h]
    · simp [lookupTally, ht] at h
      simp [ih h]

theorem lookupTally_of_mem (l : List (String × Nat)) (tag : String) (c : Nat)
    (hn : (l.map Prod.fst).Nodup) (h : (tag, c) ∈ l) : lookupTally l tag = some c := by
  induction l with
  | nil => simp at h
  | cons p rest ih =>
    obtain ⟨t, n⟩ := p
    simp only [List.map_cons, List.nodup_cons] at hn
    rcases List.mem_cons.mp h with heq | hrest
    · injection heq with h1 h2
      subst h1; subst h2
      simp [lookupTally]
    · by_cases ht : t = tag
      · subst ht
        exfalso
        exact hn.1 (by simpa using List.mem_map_of_mem Prod.fst hrest)
      · simp [lookupTally, ht, ih hn.2 hrest]

theorem keys_pairsOf (rules : List GroupRule) :
    (pairsOf rules).map Prod.fst = rules.flatMap (·.tags) := by
  induction rules with
  | nil => simp [pairsOf]
  | cons r rs ih =>
    simp only [pairsOf, List.flatMap_cons, List.map_append] at *
    rw [ih]
    congr 1
    rw [List.map_map]
    show List.map (fun t : String => t) r.tags = r.tags
    simp

theorem tallyWeight_pairsOf (rules : List GroupRule) (tag : String) :
    tallyWeight (pairsOf rules) tag = sumCountMul rules tag := by
  induction rules with
  | nil => simp [pairsOf, tallyWeight, sumCountMul]
  | cons r rs ih =>
    have happ : tallyWeight (pairsOf (r :: rs)) tag =
        tallyWeight (r.tags.map fun t => (t, r.count)) tag + tallyWeight (pairsOf rs) tag := by
      simp [pairsOf, tallyWeight, List.flatMap_cons]
    rw [happ, ih]
    have hone : tallyWeight (r.tags.map fun t => (t, r.count)) tag =
        r.tags.count tag * r.count := by
      induction r.tags with
      | nil => simp [tallyWeight]
      | cons t ts iht =>
        by_cases h : t = tag
        · subst h
          simp [tallyWeight, List.count_cons] at iht ⊢
          rw [iht]; ring
        · simp [tallyWeight, List.count_cons, h, fun hh : tag = t => h hh.symm] at iht ⊢
          rw [iht]
    rw [hone]
    simp [sumCountMul]

theorem lookupTally_countGroupDict (rules : List GroupRule) (tag : String) :
    lookupTally (countGroupDict rules) tag =
      if tag ∈ rules.flatMap (·.tags) then some (sumCountMul rules tag) else none := by
  rw [countGroupDict_eq_tallyList, lookupTally_tallyList]
  simp [lookupTally, keys_pairsOf, tallyWeight_pairsOf]

theorem keysNodup_countGroupDict (rules : List GroupRule) :
    ((countGroupDict rules).map Prod.fst).Nodup := by
  rw [countGroupDict_eq_tallyList]
  exact keysNodup_tallyList _ _ (by simp)

theorem mem_countGroupDict_iff (rules : List GroupRule) (tag : String) (c : Nat) :
    (tag, c) ∈ countGroupDict rules ↔
      tag ∈ rules.flatMap (·.tags) ∧ c = sumCountMul rules tag := by
  constructor
  · intro h
    have hl := lookupTally_of_mem _ _ _ (keysNodup_countGroupDict rules) h
    rw [lookupTally_countGroupDict] at hl
    by_cases hmem : tag ∈ rules.flatMap (·.tags)
    · rw [if_pos hmem] at hl
      exact ⟨hmem, (Option.some.injEq .. ▸ hl).symm⟩
    · rw [if_neg hmem] at hl
      exact absurd hl (by simp)
  · rintro ⟨hmem, rfl⟩
    apply mem_of_lookupTally
    rw [lookupTally_countGroupDict, if_pos hmem]

theorem map_fst_ruleHosts (pool : List String) (rules : List GroupRule) :
    (ruleHosts pool rules).map Prod.fst = rules := by
  induction rules generalizing pool with
  | nil => simp [ruleHosts]
  | cons r rs ih => simp [ruleHosts, ih]

theorem length_assignedEntriesMul (pool : List String) (rules : List GroupRule)
    (target : String) (tag : String)
    (hb : ∀ rb ∈ ruleHosts pool rules, rb.1.tags ≠ [] → rb.2.length = rb.1.count) :
    (assignedEntriesMul pool rules target tag).length = sumCountMul rules tag := by
  induction rules generalizing pool with
  | nil => simp [assignedEntriesMul, ruleHosts, sumCountMul]
  | cons r rs ih =>
    have hhead : (List.replicate (r.tags.count tag)
        ((pool.take r.count).map fun h => (⟨h, target⟩ : HostEntry))).flatten.length =
        r.tags.count tag * r.count := by
      rcases Nat.eq_zero_or_pos (r.tags.count tag) with hz | hp
      · simp [hz]
      · have hmem : tag ∈ r.tags := by
          by_contra hnm
          rw [List.count_eq_zero_of_not_mem hnm] at hp
          omega
        have hne : r.tags ≠ [] := by
          intro hnil; rw [hnil] at hmem; simp at hmem
        have := hb (r, pool.take r.count) (by simp [ruleHosts]) hne
        simp only at this
        calc (List.replicate (r.tags.count tag)
              ((pool.take r.count).map fun h => (⟨h, target⟩ : HostEntry))).flatten.length
            = r.tags.count tag *
              ((pool.take r.count).map fun h => (⟨h, target⟩ : HostEntry)).length := by
              simp [List.length_flatten, List.map_replicate, List.sum_replicate, smul_eq_mul]
          _ = r.tags.count tag * r.count := by rw [List.length_map, this]
    simp only [assignedEntriesMul, ruleHosts, List.flatMap_cons, List.length_append]
    rw [show ((ruleHosts (pool.drop r.count) rs).flatMap fun rb =>
        (List.replicate (rb.1.tags.count tag) (rb.2.map fun h => (⟨h, target⟩ : HostEntry))).flatten) =
      assignedEntriesMul (pool.drop r.count) rs target tag from rfl]
    rw [ih _ (fun rb hrb => hb rb (by simp [ruleHosts, hrb]))]
    simp only at hhead
    rw [hhead]
    simp [sumCountMul]

/-- `check_groups` returns `true` exactly when every tag of every rule is
a key of the assignment holding `sumCountMul * len(host_list)` entries. -/
theorem check_groups_eq_true_iff (groups : GroupAssignment) (rules : List GroupRule)
    (host_list : List String) :
    check_groups groups rules host_list = true ↔
      ∀ tag ∈ rules.flatMap (·.tags), ∃ l, lookupG groups tag = some l ∧
        l.length = sumCountMul rules tag * host_list.length := by
  unfold check_groups
  rw [List.all_eq_true]
  constructor
  · intro h tag hmem
    have hd : (tag, sumCountMul rules tag) ∈ countGroupDict rules :=
      (mem_countGroupDict_iff rules tag _).mpr ⟨hmem, rfl⟩
    have := h _ hd
    rcases hl : lookupG groups tag with _ | l
    · rw [hl] at this; simp at this
    · rw [hl] at this
      simp only [beq_iff_eq] at this
      exact ⟨l, rfl, this⟩
  · intro h p hp
    obtain ⟨hmem, hc⟩ := (mem_countGroupDict_iff rules p.1 p.2).mp hp
    obtain ⟨l, hl, hlen⟩ := h p.1 hmem
    rw [hl]
    simp only [beq_iff_eq]
    rw [hlen, hc]

theorem utf8DecodeOne_length : ∀ (l : List Nat) (v : Nat) (rest2 : List Nat),
    utf8DecodeOne l = some (v, rest2) → rest2.length < l.length := by
  intro l v rest2 h
  rcases l with _ | ⟨b, rest⟩
  · simp [utf8DecodeOne] at h
  · simp only [utf8DecodeOne] at h
    repeat' split at h
    all_goals
      first
        | (simp only [Option.some.injEq, Prod.mk.injEq] at h
           obtain ⟨h1, h2⟩ := h
           subst h2
           simp only [List.length_cons]
           omega)
        | exact Option.noConfusion h

theorem fst_mem_of_mem_ruleHosts {pool : List String} {rules : List GroupRule}
    {rb : GroupRule × List String} (h : rb ∈ ruleHosts pool rules) : rb.1 ∈ rules := by
  have := List.mem_map_of_mem Prod.fst h
  rwa [map_fst_ruleHosts] at this

theorem consumed_of_blocks (pool : List String) (rules : List GroupRule)
    (hb : ∀ rb ∈ ruleHosts pool rules, rb.2.length = rb.1.count) :
    totalCount rules ≤ pool.length ∧
      poolAfter pool rules = pool.drop (totalCount rules) := by
  induction rules generalizing pool with
  | nil => simp [totalCount, poolAfter]
  | cons r rs ih =>
    have hr : (pool.take r.count).length = r.count :=
      hb (r, pool.take r.count) (by simp [ruleHosts])
    have hle : r.count ≤ pool.length := by
      rw [List.length_take] at hr; omega
    have ih2 := ih (pool.drop r.count) (fun rb hrb => hb rb (by simp [ruleHosts, hrb]))
    have htot : totalCount (r :: rs) = r.count + totalCount rs := by
      simp [totalCount]
    constructor
    · have := ih2.1
      rw [List.length_drop] at this
      omega
    · have hpa : poolAfter pool (r :: rs) = poolAfter (pool.drop r.count) rs := rfl
      rw [hpa, ih2.2, List.drop_drop, htot]

theorem assignedEntries_eq_mul (pool : List String) (rules : List GroupRule)
    (target : String) (tag : String)
    (hnodup : ∀ r ∈ rules, r.tags.Nodup) :
    assignedEntries pool rules target tag = assignedEntriesMul pool rules target tag := by
  induction rules generalizing pool with
  | nil => rfl
  | cons r rs ih =>
    simp only [assignedEntries, assignedEntriesMul, ruleHosts, List.flatMap_cons] at *
    rw [ih _ (fun r2 hr2 => hnodup r2 (by simp [hr2]))]
    congr 1
    by_cases h : tag ∈ r.tags
    · have hcnt : r.tags.count tag = 1 :=
        List.count_eq_one_of_mem (hnodup r (by simp)) h
      simp [h, hcnt]
    · have hcnt : r.tags.count tag = 0 := List.count_eq_zero_of_not_mem h
      simp [h, hcnt]

/-- Claim C1, counterexample.  On the pool `[h1  h2  h3  h4]` with the single
rule `{tags := [a, b], count := 2}` the claim predicts that tag `a`
receives `h1, h2`, tag `b` receives the distinct hosts `h3, h4`, and that
`2 * 2 = 4` hosts are consumed.  The code instead hands the same two
hosts `h1, h2` to both tags and consumes only `2` hosts, leaving
`[h3, h4]` in the pool. -/
theorem c1_counterexample :
    create_groups ["h1", "h2", "h3", "h4"] [⟨["a", "b"], 2⟩] "t" =
      .ok ([("a", [⟨"h1", "t"⟩, ⟨"h2", "t"⟩]),
            ("b", [⟨"h1", "t"⟩, ⟨"h2", "t"⟩])], ["h3", "h4"]) ∧
    (["h1", "h2", "h3", "h4"].length - ["h3", "h4"].length ≠ 2 * 2) := by
  constructor
  · rfl
  · decide

/-- Claim C2, counterexample.  Partitioning the pool `[h1  h2]` under the
single rule `{tags := [web], count := 1}` succeeds, but validating the
fresh assignment against the same rules with `totalHostCount = 2` (the
original pool length) returns `false`: the tag `web` holds `1` entry
while `check_groups` expects `1 * 2 = 2`. -/
theorem c2_counterexample :
    create_groups ["h1", "h2"] [⟨["web"], 1⟩] "t" =
      .ok ([("web", [⟨"h1", "t"⟩])], ["h2"]) ∧
    check_groups [("web", [⟨"h1", "t"⟩])] [⟨["web"], 1⟩] ["h1", "h2"] = false := by
  constructor
  · rfl
  · decide

/-- Claim C4, counterexample.  With the tag `a` shared by two rules of
count `1`, a current assignment holding one entry for `a`, and a host
list of length `1`: every single rule expects `1 * 1 = 1` entry, which
matches, so the reading in the claim makes the assignment valid; the code
tallies the counts over both rules and demands `2 * 1 = 2` entries, so
`check_groups` returns `false`. -/
theorem c4_counterexample :
    check_groups [("a", [⟨"h", "t"⟩])] [⟨["a"], 1⟩, ⟨["a"], 1⟩] ["x"] ≠
      isValid_claim [("a", [⟨"h", "t"⟩])] [⟨["a"], 1⟩, ⟨["a"], 1⟩] ["x"].length := by
  decide

/-- Claim C1, amended.  `partition` processes rules in declaration order;
for each rule it reads the next `rule.count` hosts from the front of the
working pool once and appends the same `{host, target}` entries to the
group list of every tag in the tag set of the rule (tags of one rule share
their hosts rather than receiving distinct ones), and the pool is shrunk
by `rule.count` per rule, so in total exactly the sum over rules of
`rule.count` hosts is consumed (when every rule names at least one tag). -/
theorem c1_amended (pool : List String) (rules : List GroupRule) (target : String)
    (g : GroupAssignment) (rest : List String)
    (htags : ∀ r ∈ rules, r.tags ≠ [])
    (hnodup : ∀ r ∈ rules, r.tags.Nodup)
    (hok : create_groups pool rules target = .ok (g, rest)) :
    totalCount rules ≤ pool.length ∧
    rest = pool.drop (totalCount rules) ∧
    ∀ tag, (lookupG g tag).getD [] = assignedEntries pool rules target tag := by
  have hok' : create_groupsGo [] pool rules target = .ok (g, rest) := hok
  have hb : ∀ rb ∈ ruleHosts pool rules, rb.2.length = rb.1.count := fun rb hrb =>
    create_groupsGo_blockLength _ _ _ _ _ _ hok' rb hrb
      (htags rb.1 (fst_mem_of_mem_ruleHosts hrb))
  obtain ⟨hle, hpa⟩ := consumed_of_blocks pool rules hb
  refine ⟨hle, ?_, ?_⟩
  · rw [← hpa]
    exact create_groupsGo_rest _ _ _ _ _ _ hok'
  · intro tag
    have := create_groupsGo_getD _ _ _ _ _ _ hok' tag
    simp only [lookupG, Option.getD_none, List.nil_append] at this
    rw [this, assignedEntries_eq_mul _ _ _ _ hnodup]

/-- Claim C1 witness: a concrete run of the amended statement. -/
theorem c1_witness :
    totalCount [⟨["a", "b"], 2⟩] ≤ (["h1", "h2", "h3", "h4"] : List String).length ∧
    (lookupG [("a", [⟨"h1", "t"⟩, ⟨"h2", "t"⟩]), ("b", [⟨"h1", "t"⟩, ⟨"h2", "t"⟩])]
        "b").getD [] =
      assignedEntries ["h1", "h2", "h3", "h4"] [⟨["a", "b"], 2⟩] "t" "b" := by
  have h := c1_amended ["h1", "h2", "h3", "h4"] [⟨["a", "b"], 2⟩] "t"
    [("a", [⟨"h1", "t"⟩, ⟨"h2", "t"⟩]), ("b", [⟨"h1", "t"⟩, ⟨"h2", "t"⟩])] ["h3", "h4"]
    (by decide) (by decide) (by rfl)
  exact ⟨h.1, h.2.2 "b"⟩

/-- Claim C2, amended.  Validating the freshly computed assignment
against the same rules succeeds with `totalHostCount` equal to `1`
(rather than the original pool length), provided every rule demands at
least one host: `check_groups` expects `count * totalHostCount` entries
per tag while `create_groups` produces `count` of them per rule. -/
theorem c2_amended (pool : List String) (rules : List GroupRule) (target : String)
    (g : GroupAssignment) (rest : List String) (h0 : String)
    (hcounts : ∀ r ∈ rules, 1 ≤ r.count)
    (hok : create_groups pool rules target = .ok (g, rest)) :
    check_groups g rules [h0] = true := by
  have hok' : create_groupsGo [] pool rules target = .ok (g, rest) := hok
  rw [check_groups_eq_true_iff]
  intro tag hmem
  obtain ⟨r, hr, htag⟩ := List.mem_flatMap.mp hmem
  have hsome : (lookupG g tag).isSome := by
    rw [create_groupsGo_isSome _ _ _ _ _ _ hok' tag]
    exact Or.inr ⟨r, hr, htag, hcounts r hr⟩
  obtain ⟨l, hl⟩ := Option.isSome_iff_exists.mp hsome
  refine ⟨l, hl, ?_⟩
  have hgd := create_groupsGo_getD _ _ _ _ _ _ hok' tag
  rw [hl] at hgd
  simp only [Option.getD_some, lookupG, Option.getD_none, List.nil_append] at hgd
  rw [hgd, length_assignedEntriesMul _ _ _ _
    (create_groupsGo_blockLength _ _ _ _ _ _ hok')]
  simp

/-- Claim C2 witness: a concrete run of the amended statement. -/
theorem c2_witness :
    create_groups ["h1"] [⟨["web"], 1⟩] "t" = .ok ([("web", [⟨"h1", "t"⟩])], []) ∧
    check_groups [("web", [⟨"h1", "t"⟩])] [⟨["web"], 1⟩] ["x"] = true :=
  ⟨by rfl, c2_amended ["h1"] [⟨["web"], 1⟩] "t" [("web", [⟨"h1", "t"⟩])] [] "x"
    (by decide) (by rfl)⟩

/-- Claim C4, amended.  `check_groups` returns `false` exactly when some
tag appearing in the rules is missing from the current assignment or has
an entry count different from the expected count computed as the total
demand for that tag summed over all rules that mention it (with
multiplicity) times `len(host_list)`. -/
theorem c4_amended (current : GroupAssignment) (rules : List GroupRule)
    (host_list : List String) :
    check_groups current rules host_list = false ↔
      ∃ tag ∈ rules.flatMap (·.tags),
        lookupG current tag = none ∨
        ∃ l, lookupG current tag = some l ∧
          l.length ≠ sumCountMul rules tag * host_list.length := by
  rw [← Bool.not_eq_true, check_groups_eq_true_iff]
  push_neg
  constructor
  · rintro ⟨tag, hmem, hall⟩
    refine ⟨tag, hmem, ?_⟩
    rcases hl : lookupG current tag with _ | l
    · exact Or.inl rfl
    · exact Or.inr ⟨l, rfl, hall l hl⟩
  · rintro ⟨tag, hmem, hbad⟩
    refine ⟨tag, hmem, ?_⟩
    intro l hl
    rcases hbad with hnone | ⟨l2, hl2, hne⟩
    · rw [hl] at hnone
      exact absurd hnone (by simp)
    · rw [hl] at hl2
      injection hl2 with h2
      exact h2 ▸ hne

theorem sextetOfChar_charOfSextet : ∀ n, n < 64 →
    sextetOfChar (charOfSextet n) = some n := by decide

theorem charOfSextet_ne_pad : ∀ n, n < 64 → (charOfSextet n == '=') = false := by decide

theorem charOfSextet_ne : ∀ n, n < 64 → ¬ charOfSextet n = '=' := by decide

theorem charOfSextet_ascii : ∀ n, n < 64 → (charOfSextet n).toNat < 128 := by decide

theorem a2b_data0 (v : Nat) (hv : v < 64) (rest : List Char) (left pads : Nat)
    (acc : List Nat) :
    a2b_base64 (charOfSextet v :: rest) 0 left pads acc =
      a2b_base64 rest 1 v 0 acc := by
  simp only [a2b_base64]
  rw [if_neg (charOfSextet_ne v hv), sextetOfChar_charOfSextet v hv]

theorem a2b_data1 (v : Nat) (hv : v < 64) (rest : List Char) (left pads : Nat)
    (acc : List Nat) :
    a2b_base64 (charOfSextet v :: rest) 1 left pads acc =
      a2b_base64 rest 2 (v % 16) 0 (acc ++ [left * 4 + v / 16]) := by
  simp only [a2b_base64]
  rw [if_neg (charOfSextet_ne v hv), sextetOfChar_charOfSextet v hv]

theorem a2b_data2 (v : Nat) (hv : v < 64) (rest : List Char) (left pads : Nat)
    (acc : List Nat) :
    a2b_base64 (charOfSextet v :: rest) 2 left pads acc =
      a2b_base64 rest 3 (v % 4) 0 (acc ++ [left * 16 + v / 4]) := by
  simp only [a2b_base64]
  rw [if_neg (charOfSextet_ne v hv), sextetOfChar_charOfSextet v hv]

theorem a2b_data3 (v : Nat) (hv : v < 64) (rest : List Char) (left pads : Nat)
    (acc : List Nat) :
    a2b_base64 (charOfSextet v :: rest) 3 left pads acc =
      a2b_base64 rest 0 0 0 (acc ++ [left * 64 + v]) := by
  simp only [a2b_base64]
  rw [if_neg (charOfSextet_ne v hv), sextetOfChar_charOfSextet v hv]

theorem a2b_pad_more (rest : List Char) (q left pads : Nat) (acc : List Nat)
    (hq : 2 ≤ q) (hd : ¬ 4 ≤ q + pads + 1) :
    a2b_base64 ('=' :: rest) q left pads acc =
      a2b_base64 rest q left (pads + 1) acc := by
  simp only [a2b_base64, if_true]
  rw [if_pos hq, if_neg hd]

theorem a2b_pad_done (rest : List Char) (q left pads : Nat) (acc : List Nat)
    (hq : 2 ≤ q) (hd : 4 ≤ q + pads + 1) :
    a2b_base64 ('=' :: rest) q left pads acc = some acc := by
  simp only [a2b_base64, if_true]
  rw [if_pos hq, if_pos hd]

/-- Feeding the padded base64 body of a byte list into the quad state
machine from a clean state recovers exactly those bytes, appended to the
accumulator. -/
theorem a2b_encodeBody : ∀ bytes : List Nat, ∀ acc : List Nat,
    (∀ b ∈ bytes, b < 256) →
    a2b_base64 (b64encodeBody bytes ++ ['=', '=', '=']) 0 0 0 acc =
      some (acc ++ bytes) := by
  intro bytes
  induction bytes using b64encodeBody.induct with
  | case1 =>
    intro acc _
    simp [b64encodeBody, a2b_base64]
  | case2 b1 =>
    intro acc h
    have hb1 : b1 < 256 := h b1 (by simp)
    rw [b64encodeBody]
    simp only [List.cons_append, List.nil_append]
    rw [a2b_data0 _ (by omega), a2b_data1 _ (by omega),
      a2b_pad_more _ _ _ _ _ (by omega) (by omega),
      a2b_pad_done _ _ _ _ _ (by omega) (by omega)]
    have hbyte : b1 / 4 * 4 + (b1 % 4 * 16) / 16 = b1 := by omega
    rw [hbyte]
  | case3 b1 b2 =>
    intro acc h
    have hb1 : b1 < 256 := h b1 (by simp)
    have hb2 : b2 < 256 := h b2 (by simp)
    rw [b64encodeBody]
    simp only [List.cons_append, List.nil_append]
    rw [a2b_data0 _ (by omega), a2b_data1 _ (by omega), a2b_data2 _ (by omega),
      a2b_pad_done _ _ _ _ _ (by omega) (by omega)]
    have hbyte1 : b1 / 4 * 4 + (b1 % 4 * 16 + b2 / 16) / 16 = b1 := by omega
    have hbyte2 : (b1 % 4 * 16 + b2 / 16) % 16 * 16 + b2 % 16 * 4 / 4 = b2 := by omega
    rw [hbyte1, hbyte2, List.append_assoc]
    rfl
  | case4 b1 b2 b3 rest ih =>
    intro acc h
    have hb1 : b1 < 256 := h b1 (by simp)
    have hb2 : b2 < 256 := h b2 (by simp)
    have hb3 : b3 < 256 := h b3 (by simp)
    have hrest : ∀ b ∈ rest, b < 256 := fun b hb => h b (by simp [hb])
    rw [b64encodeBody]
    simp only [List.cons_append]
    rw [a2b_data0 _ (by omega), a2b_data1 _ (by omega), a2b_data2 _ (by omega),
      a2b_data3 _ (by omega)]
    rw [show (b64encodeBody rest ++ ['=', '=', '='] : List Char) =
      b64encodeBody rest ++ ['=', '=', '='] from rfl]
    rw [ih _ hrest]
    have hbyte1 : b1 / 4 * 4 + (b1 % 4 * 16 + b2 / 16) / 16 = b1 := by omega
    have hbyte2 : (b1 % 4 * 16 + b2 / 16) % 16 * 16 +
        (b2 % 16 * 4 + b3 / 64) / 4 = b2 := by omega
    have hbyte3 : (b2 % 16 * 4 + b3 / 64) % 4 * 64 + b3 % 64 = b3 := by omega
    rw [hbyte1, hbyte2, hbyte3]
    simp [List.append_assoc]


theorem dropWhile_append_all {p : Char → Bool} (xs ys : List Char)
    (hall : ∀ c ∈ xs, p c = true) :
    (xs ++ ys).dropWhile p = ys.dropWhile p := by
  induction xs with
  | nil => simp
  | cons c cs ih =>
    have hc : p c = true := hall c (by simp)
    simp [List.dropWhile_cons, hc, ih (fun c2 hc2 => hall c2 (by simp [hc2]))]

theorem b64encodeBody_forall : ∀ bytes : List Nat, (∀ b ∈ bytes, b < 256) →
    ∀ c ∈ b64encodeBody bytes, ∃ n, n < 64 ∧ c = charOfSextet n := by
  intro bytes
  induction bytes using b64encodeBody.induct with
  | case1 =>
    intro _
    simp [b64encodeBody]
  | case2 b1 =>
    intro h c hc
    have hb1 : b1 < 256 := h b1 (by simp)
    simp only [b64encodeBody, List.mem_cons, List.not_mem_nil, or_false] at hc
    rcases hc with rfl | rfl
    · exact ⟨b1 / 4, by omega, rfl⟩
    · exact ⟨b1 % 4 * 16, by omega, rfl⟩
  | case3 b1 b2 =>
    intro h c hc
    have hb1 : b1 < 256 := h b1 (by simp)
    have hb2 : b2 < 256 := h b2 (by simp)
    simp only [b64encodeBody, List.mem_cons, List.not_mem_nil, or_false] at hc
    rcases hc with rfl | rfl | rfl
    · exact ⟨b1 / 4, by omega, rfl⟩
    · exact ⟨b1 % 4 * 16 + b2 / 16, by omega, rfl⟩
    · exact ⟨b2 % 16 * 4, by omega, rfl⟩
  | case4 b1 b2 b3 rest ih =>
    intro h c hc
    have hb1 : b1 < 256 := h b1 (by simp)
    have hb2 : b2 < 256 := h b2 (by simp)
    have hb3 : b3 < 256 := h b3 (by simp)
    have hrest : ∀ b ∈ rest, b < 256 := fun b hb => h b (by simp [hb])
    simp only [b64encodeBody, List.mem_cons] at hc
    rcases hc with rfl | rfl | rfl | rfl | hc
    · exact ⟨b1 / 4, by omega, rfl⟩
    · exact ⟨b1 % 4 * 16 + b2 / 16, by omega, rfl⟩
    · exact ⟨b2 % 16 * 4 + b3 / 64, by omega, rfl⟩
    · exact ⟨b3 % 64, by omega, rfl⟩
    · exact ih hrest c hc

theorem b64pad_cases (bytes : List Nat) :
    b64pad bytes = [] ∨ b64pad bytes = ['='] ∨ b64pad bytes = ['=', '='] := by
  rcases hmod : bytes.length % 3 with _ | _ | _ | k <;> simp [b64pad, hmod]

theorem stripPadding_b64encode (bytes : List Nat) (h : ∀ b ∈ bytes, b < 256) :
    stripPadding (b64encode bytes) = b64encodeBody bytes := by
  have hpad : ∀ c ∈ (b64pad bytes).reverse, (c == '=') = true := by
    intro c hc
    rw [List.mem_reverse] at hc
    rcases b64pad_cases bytes with hp | hp | hp <;> rw [hp] at hc <;> simp at hc <;>
      simp [hc]
  unfold stripPadding b64encode
  rw [List.reverse_append, dropWhile_append_all _ _ hpad]
  rcases hrev : (b64encodeBody bytes).reverse with _ | ⟨c, cs⟩
  · have hbody : b64encodeBody bytes = [] := by
      have := congrArg List.reverse hrev
      simpa using this
    simp [hbody]
  · have hc : c ∈ b64encodeBody bytes := by
      rw [← List.mem_reverse, hrev]
      simp
    obtain ⟨n, hn, rfl⟩ := b64encodeBody_forall bytes h c hc
    rw [List.dropWhile_cons]
    rw [charOfSextet_ne_pad n hn]
    simp only [Bool.false_eq_true, if_false]
    rw [← hrev, List.reverse_reverse]

/-- The padded base64 body of a byte list decodes back to those bytes
through `b64decode_py`. -/
theorem b64decode_py_encodeBody (bytes : List Nat) (h : ∀ b ∈ bytes, b < 256) :
    b64decode_py (b64encodeBody bytes ++ ['=', '=', '=']) = some bytes := by
  have hascii : ∀ c ∈ b64encodeBody bytes ++ ['=', '=', '='], c.toNat < 128 := by
    intro c hc
    rcases List.mem_append.mp hc with hbody | hpad
    · obtain ⟨n, hn, rfl⟩ := b64encodeBody_forall bytes h c hbody
      exact charOfSextet_ascii n hn
    · have hc2 : c = '=' := by
        simp only [List.mem_cons, List.not_mem_nil, or_false] at hpad
        rcases hpad with h2 | h2 | h2 <;> exact h2
      subst hc2
      decide
  unfold b64decode_py
  rw [if_pos hascii]
  have := a2b_encodeBody bytes [] h
  simpa using this

theorem utf8EncodeChar_lt : ∀ n, n < 0x110000 → ∀ b ∈ utf8EncodeChar n, b < 256 := by
  intro n hn b hb
  unfold utf8EncodeChar at hb
  by_cases h1 : n < 0x80
  · simp only [if_pos h1, List.mem_cons, List.not_mem_nil, or_false] at hb
    omega
  · by_cases h2 : n < 0x800
    · simp only [if_neg h1, if_pos h2, List.mem_cons, List.not_mem_nil, or_false] at hb
      rcases hb with rfl | rfl <;> omega
    · by_cases h3 : n < 0x10000
      · simp only [if_neg h1, if_neg h2, if_pos h3, List.mem_cons, List.not_mem_nil,
          or_false] at hb
        rcases hb with rfl | rfl | rfl <;> omega
      · simp only [if_neg h1, if_neg h2, if_neg h3, List.mem_cons, List.not_mem_nil,
          or_false] at hb
        rcases hb with rfl | rfl | rfl | rfl <;> omega

theorem utf8Encode_lt (cs : List Char) : ∀ b ∈ utf8Encode cs, b < 256 := by
  intro b hb
  rw [utf8Encode, List.mem_flatMap] at hb
  obtain ⟨c, _, hbc⟩ := hb
  have hv : c.toNat < 0xD800 ∨ (0xDFFF < c.toNat ∧ c.toNat < 0x110000) := c.valid
  exact utf8EncodeChar_lt c.toNat (by omega) b hbc

theorem utf8DecodeOne_ascii {b : Nat} (rest : List Nat) (h : b < 0x80) :
    utf8DecodeOne (b :: rest) = some (b, rest) := by
  simp only [utf8DecodeOne]
  rw [if_pos h]

theorem utf8DecodeOne_two {b b1 : Nat} (rest : List Nat) (h1 : ¬ b < 0x80)
    (h2 : ¬ b < 0xC0) (h3 : b < 0xE0)
    (hcond : isCont b1 ∧ 0x80 ≤ (b - 0xC0) * 64 + (b1 - 0x80)) :
    utf8DecodeOne (b :: b1 :: rest) = some ((b - 0xC0) * 64 + (b1 - 0x80), rest) := by
  simp only [utf8DecodeOne]
  rw [if_neg h1, if_neg h2, if_pos h3]
  exact if_pos hcond

theorem utf8DecodeOne_three {b b1 b2 : Nat} (rest : List Nat) (h1 : ¬ b < 0x80)
    (h2 : ¬ b < 0xC0) (h3 : ¬ b < 0xE0) (h4 : b < 0xF0)
    (hcond : isCont b1 ∧ isCont b2 ∧
      0x800 ≤ (b - 0xE0) * 4096 + (b1 - 0x80) * 64 + (b2 - 0x80) ∧
      ((b - 0xE0) * 4096 + (b1 - 0x80) * 64 + (b2 - 0x80) < 0xD800 ∨
       0xDFFF < (b - 0xE0) * 4096 + (b1 - 0x80) * 64 + (b2 - 0x80))) :
    utf8DecodeOne (b :: b1 :: b2 :: rest) =
      some ((b - 0xE0) * 4096 + (b1 - 0x80) * 64 + (b2 - 0x80), rest) := by
  simp only [utf8DecodeOne]
  rw [if_neg h1, if_neg h2, if_neg h3, if_pos h4]
  exact if_pos hcond

theorem utf8DecodeOne_four {b b1 b2 b3 : Nat} (rest : List Nat) (h1 : ¬ b < 0x80)
    (h2 : ¬ b < 0xC0) (h3 : ¬ b < 0xE0) (h4 : ¬ b < 0xF0) (h5 : b < 0xF5)
    (hcond : isCont b1 ∧ isCont b2 ∧ isCont b3 ∧
      0x10000 ≤ (b - 0xF0) * 262144 + (b1 - 0x80) * 4096 + (b2 - 0x80) * 64 +
        (b3 - 0x80) ∧
      (b - 0xF0) * 262144 + (b1 - 0x80) * 4096 + (b2 - 0x80) * 64 + (b3 - 0x80) <
        0x110000) :
    utf8DecodeOne (b :: b1 :: b2 :: b3 :: rest) =
      some ((b - 0xF0) * 262144 + (b1 - 0x80) * 4096 + (b2 - 0x80) * 64 + (b3 - 0x80),
        rest) := by
  simp only [utf8DecodeOne]
  rw [if_neg h1, if_neg h2, if_neg h3, if_neg h4, if_pos h5]
  exact if_pos hcond

theorem utf8DecodeOne_encodeChar (c : Char) (rest : List Nat) :
    utf8DecodeOne (utf8EncodeChar c.toNat ++ rest) = some (c.toNat, rest) := by
  have hv : c.toNat < 0xD800 ∨ (0xDFFF < c.toNat ∧ c.toNat < 0x110000) := c.valid
  by_cases h1 : c.toNat < 0x80
  · rw [utf8EncodeChar, if_pos h1]
    simp only [List.cons_append, List.nil_append]
    exact utf8DecodeOne_ascii rest h1
  · by_cases h2 : c.toNat < 0x800
    · rw [utf8EncodeChar, if_neg h1, if_pos h2]
      simp only [List.cons_append, List.nil_append]
      rw [utf8DecodeOne_two rest (by omega) (by omega) (by omega)
        ⟨⟨by omega, by omega⟩, by omega⟩]
      simp only [Option.some.injEq, Prod.mk.injEq, and_true]
      omega
    · by_cases h3 : c.toNat < 0x10000
      · rw [utf8EncodeChar, if_neg h1, if_neg h2, if_pos h3]
        simp only [List.cons_append, List.nil_append]
        rw [utf8DecodeOne_three rest (by omega) (by omega) (by omega) (by omega)
          ⟨⟨by omega, by omega⟩, ⟨by omega, by omega⟩, by omega, by omega⟩]
        simp only [Option.some.injEq, Prod.mk.injEq, and_true]
        omega
      · rw [utf8EncodeChar, if_neg h1, if_neg h2, if_neg h3]
        simp only [List.cons_append, List.nil_append]
        rw [utf8DecodeOne_four rest (by omega) (by omega) (by omega) (by omega)
          (by omega)
          ⟨⟨by omega, by omega⟩, ⟨by omega, by omega⟩, ⟨by omega, by omega⟩,
            by omega, by omega⟩]
        simp only [Option.some.injEq, Prod.mk.injEq, and_true]
        omega

theorem utf8DecodeFuel_congr : ∀ (fuel1 fuel2 : Nat) (l : List Nat),
    l.length ≤ fuel1 → l.length ≤ fuel2 →
    utf8DecodeFuel fuel1 l = utf8DecodeFuel fuel2 l := by
  intro fuel1
  induction fuel1 with
  | zero =>
    intro fuel2 l h1 _
    have : l = [] := by
      rcases l with _ | ⟨b, rest⟩
      · rfl
      · simp at h1
    subst this
    cases fuel2 <;> rfl
  | succ f1 ih =>
    intro fuel2 l h1 h2
    rcases l with _ | ⟨b, rest⟩
    · cases fuel2 <;> rfl
    · rcases fuel2 with _ | f2
      · simp at h2
      · simp only [utf8DecodeFuel]
        rcases hone : utf8DecodeOne (b :: rest) with _ | ⟨v, rest2⟩
        · rfl
        · have hlen := utf8DecodeOne_length _ _ _ hone
          simp only [List.length_cons] at hlen h1 h2
          simp [ih f2 rest2 (by omega) (by omega)]

theorem utf8DecodeFuel_eq (fuel : Nat) (l : List Nat) (h : l.length ≤ fuel) :
    utf8DecodeFuel fuel l = utf8Decode l :=
  utf8DecodeFuel_congr fuel l.length l h (Nat.le_refl _)

theorem utf8Decode_nil : utf8Decode [] = some [] := rfl

theorem utf8Decode_cons (b : Nat) (rest : List Nat) (v : Nat) (rest2 : List Nat)
    (h : utf8DecodeOne (b :: rest) = some (v, rest2)) :
    utf8Decode (b :: rest) = (utf8Decode rest2).map fun cs => Char.ofNat v :: cs := by
  have hlen := utf8DecodeOne_length _ _ _ h
  simp only [List.length_cons] at hlen
  show utf8DecodeFuel (b :: rest).length (b :: rest) = _
  rw [List.length_cons]
  simp only [utf8DecodeFuel, h]
  rw [utf8DecodeFuel_eq rest.length rest2 (by omega)]

theorem utf8Decode_encodeChar (c : Char) (rest : List Nat) :
    utf8Decode (utf8EncodeChar c.toNat ++ rest) =
      (utf8Decode rest).map fun cs => c :: cs := by
  have henc : utf8DecodeOne (utf8EncodeChar c.toNat ++ rest) = some (c.toNat, rest) :=
    utf8DecodeOne_encodeChar c rest
  obtain ⟨b, tl, hform⟩ : ∃ b tl, utf8EncodeChar c.toNat ++ rest = b :: tl := by
    rcases he : utf8EncodeChar c.toNat with _ | ⟨b, tl0⟩
    · exfalso
      rw [he] at henc
      simp only [List.nil_append] at henc
      have := utf8DecodeOne_length _ _ _ henc
      omega
    · exact ⟨b, tl0 ++ rest, by simp [he]⟩
  rw [hform] at henc ⊢
  rw [utf8Decode_cons _ _ _ _ henc, Char.ofNat_toNat]

theorem utf8Decode_utf8Encode (cs : List Char) : utf8Decode (utf8Encode cs) = some cs := by
  induction cs with
  | nil =>
    rw [show utf8Encode [] = [] from rfl]
    exact utf8Decode_nil
  | cons c cs ih =>
    rw [utf8Encode, List.flatMap_cons]
    rw [show cs.flatMap (fun c2 => utf8EncodeChar c2.toNat) = utf8Encode cs from rfl]
    rw [utf8Decode_encodeChar, ih]
    rfl

/-- Claim C3: when the pool is exhausted before the demand of some rule (a
rule with at least one tag whose count exceeds the hosts left), the
partition fails with the insufficient-hosts error and the grouped
reconciliation step errors out before the remote write: no assignment is
produced or persisted. -/
theorem c3_insufficient (pool : List String) (rules : List GroupRule) (target : String)
    (hbad : ∃ i, ∃ h : i < rules.length, (rules.get ⟨i, h⟩).tags ≠ [] ∧
      (poolAfter pool (rules.take i)).length < (rules.get ⟨i, h⟩).count) :
    create_groups pool rules target = .error .insufficientHosts ∧
    ∀ (resolve : SecretResolver) (stGroups : GroupAssignment)
      (params : List (String × ParamValue)) (secrets : Option (List (String × String))),
      check_groups stGroups rules pool = false →
      reconcileGrouped resolve stGroups pool rules target params secrets =
        .error (.partition .insufficientHosts) := by
  have herr : create_groups pool rules target = .error .insufficientHosts :=
    create_groupsGo_error rules [] pool target hbad
  refine ⟨herr, ?_⟩
  intro resolve stGroups params secrets hinvalid
  unfold reconcileGrouped
  rw [if_neg (by simp [hinvalid]), herr]

/-- Claim C3 witness: the spec scenario of a one-host pool and a rule
demanding two hosts. -/
theorem c3_witness :
    create_groups ["h1"] [⟨["web"], 2⟩] "t" = .error .insufficientHosts ∧
    reconcileGrouped (fun s => .ok s) [] ["h1"] [⟨["web"], 2⟩] "t" [] none =
      .error (.partition .insufficientHosts) := by
  have h := c3_insufficient ["h1"] [⟨["web"], 2⟩] "t" ⟨0, by decide, by decide, by decide⟩
  exact ⟨h.1, h.2 (fun s => .ok s) [] [] none (by decide)⟩

/-- Claim C5: when the persisted assignment already validates, the
grouped reconciliation step performs zero remote writes, leaves the
assignment untouched, and running it again publishes the identical
inventory operation sequence with zero writes. -/
theorem c5_no_write_idempotent (resolve : SecretResolver) (stGroups : GroupAssignment)
    (hosts : List String) (rules : List GroupRule) (target : String)
    (params : List (String × ParamValue)) (secrets : Option (List (String × String)))
    (w : List GroupAssignment) (ops : List InvOp) (g2 : GroupAssignment)
    (hvalid : check_groups stGroups rules hosts = true)
    (hrun : reconcileGrouped resolve stGroups hosts rules target params secrets =
      .ok (w, ops, g2)) :
    w = [] ∧ g2 = stGroups ∧
    reconcileGrouped resolve g2 hosts rules target params secrets = .ok ([], ops, g2) := by
  unfold reconcileGrouped at hrun ⊢
  rw [if_pos hvalid] at hrun
  rcases hpub : publishGrouped resolve params secrets stGroups with e | ops0
  · rw [hpub] at hrun
    exact absurd hrun (by simp)
  · rw [hpub] at hrun
    simp only [Except.ok.injEq, Prod.mk.injEq] at hrun
    obtain ⟨hw, hops, hg⟩ := hrun
    refine ⟨hw.symm, hg.symm, ?_⟩
    rw [← hg, if_pos hvalid, hpub, hops]

/-- Claim C5 witness: a valid one-group assignment is republished
verbatim with no writes. -/
theorem c5_witness :
    reconcileGrouped (fun s => .ok s) [("web", [⟨"h1", "t"⟩])] ["h1"] [⟨["web"], 1⟩]
        "t" [] none =
      .ok ([], [InvOp.addGroup "web", InvOp.addHost "h1" "web"],
        [("web", [⟨"h1", "t"⟩])]) := by
  have h := c5_no_write_idempotent (fun s => .ok s) [("web", [⟨"h1", "t"⟩])] ["h1"]
    [⟨["web"], 1⟩] "t" [] none [] [InvOp.addGroup "web", InvOp.addHost "h1" "web"]
    [("web", [⟨"h1", "t"⟩])] (by decide) (by rfl)
  exact h.2.2

theorem mem_simple_shape0 (a tv x : InvOp) (hostOps pmap : List InvOp)
    (hx : x ∈ hostOps ∨ x = tv ∨ x ∈ pmap) :
    x ∈ a :: (hostOps ++ ([tv] ++ pmap)) := by
  simp [List.mem_append, List.mem_cons]
  tauto

theorem mem_simple_shape (a tv x : InvOp) (hostOps pmap tl : List InvOp)
    (hx : x ∈ hostOps ∨ x = tv ∨ x ∈ pmap ∨ x ∈ tl) :
    x ∈ (a :: (hostOps ++ ([tv] ++ pmap))) ++ tl := by
  simp [List.mem_append, List.mem_cons]
  tauto

theorem publishSimple_ok_spec (resolve : SecretResolver) (service : String)
    (index : Nat) (sd : ServiceDefinition) (ops0 : List InvOp)
    (hps : publishSimple resolve service index sd = .ok ops0) :
    ops0.head? = some (.addGroup service) ∧
    (∀ hs, sd.hosts = some hs → ∀ h ∈ hs, InvOp.addHost h service ∈ ops0) ∧
    ((sd.hosts = none ∨ sd.hosts = some []) →
      InvOp.addHost (service ++ "_" ++ toString index) service ∈ ops0) ∧
    InvOp.setVar service "infrastructure_target" (.str sd.infrastructure_target) ∈ ops0 ∧
    (∀ kv ∈ sd.provisioning_parameters, InvOp.setVar service kv.1 kv.2 ∈ ops0) ∧
    (∀ s m, sd.secrets = some s → resolve s = .ok m →
      ∀ kv ∈ m, InvOp.setVar service kv.1 (.str kv.2) ∈ ops0) := by
  obtain ⟨hosts, params, target, secrets⟩ := sd
  simp only [publishSimple] at hps
  rcases hosts with _ | ⟨_ | ⟨h, hs⟩⟩ <;> rcases hsec : secrets with _ | s <;>
    rw [hsec] at hps
  case none.none =>
    simp only at hps
    injection hps with hps
    subst hps
    refine ⟨rfl, ?_, ?_, ?_, ?_, ?_⟩
    · intro hs2 hhs2
      exact absurd hhs2 (by simp)
    · intro _
      exact mem_simple_shape0 _ _ _ _ _ (Or.inl (by simp))
    · exact mem_simple_shape0 _ _ _ _ _ (Or.inr (Or.inl rfl))
    · intro kv hkv
      exact mem_simple_shape0 _ _ _ _ _
        (Or.inr (Or.inr (List.mem_map_of_mem _ hkv)))
    · intro s2 m2 hs2 _ _ _
      exact absurd hs2 (by simp)
  case none.some =>
    simp only at hps
    rcases hres : resolve s with e | m <;> rw [hres] at hps
    · exact absurd hps (by simp)
    · injection hps with hps
      subst hps
      refine ⟨rfl, ?_, ?_, ?_, ?_, ?_⟩
      · intro hs2 hhs2
        exact absurd hhs2 (by simp)
      · intro _
        exact mem_simple_shape _ _ _ _ _ _ (Or.inl (by simp))
      · exact mem_simple_shape _ _ _ _ _ _ (Or.inr (Or.inl rfl))
      · intro kv hkv
        exact mem_simple_shape _ _ _ _ _ _
          (Or.inr (Or.inr (Or.inl (List.mem_map_of_mem _ hkv))))
      · intro s2 m2 hs2 hm2 kv hkv
        injection hs2 with hs2
        subst hs2
        rw [hres] at hm2
        injection hm2 with hm2
        subst hm2
        exact mem_simple_shape _ _ _ _ _ _
          (Or.inr (Or.inr (Or.inr (List.mem_map_of_mem _ hkv))))
  case some.nil.none =>
    simp only at hps
    injection hps with hps
    subst hps
    refine ⟨rfl, ?_, ?_, ?_, ?_, ?_⟩
    · intro hs2 hhs2 h2 hmem
      injection hhs2 with he
      subst he
      simp at hmem
    · intro _
      exact mem_simple_shape0 _ _ _ _ _ (Or.inl (by simp))
    · exact mem_simple_shape0 _ _ _ _ _ (Or.inr (Or.inl rfl))
    · intro kv hkv
      exact mem_simple_shape0 _ _ _ _ _
        (Or.inr (Or.inr (List.mem_map_of_mem _ hkv)))
    · intro s2 m2 hs2 _ _ _
      exact absurd hs2 (by simp)
  case some.nil.some =>
    simp only at hps
    rcases hres : resolve s with e | m <;> rw [hres] at hps
    · exact absurd hps (by simp)
    · injection hps with hps
      subst hps
      refine ⟨rfl, ?_, ?_, ?_, ?_, ?_⟩
      · intro hs2 hhs2 h2 hmem
        injection hhs2 with he
        subst he
        simp at hmem
      · intro _
        exact mem_simple_shape _ _ _ _ _ _ (Or.inl (by simp))
      · exact mem_simple_shape _ _ _ _ _ _ (Or.inr (Or.inl rfl))
      · intro kv hkv
        exact mem_simple_shape _ _ _ _ _ _
          (Or.inr (Or.inr (Or.inl (List.mem_map_of_mem _ hkv))))
      · intro s2 m2 hs2 hm2 kv hkv
        injection hs2 with hs2
        subst hs2
        rw [hres] at hm2
        injection hm2 with hm2
        subst hm2
        exact mem_simple_shape _ _ _ _ _ _
          (Or.inr (Or.inr (Or.inr (List.mem_map_of_mem _ hkv))))
  case some.cons.none =>
    simp only at hps
    injection hps with hps
    subst hps
    refine ⟨rfl, ?_, ?_, ?_, ?_, ?_⟩
    · intro hs2 hhs2 h2 hmem
      injection hhs2 with he
      subst he
      exact mem_simple_shape0 _ _ _ _ _ (Or.inl (List.mem_map_of_mem _ hmem))
    · rintro (hc | hc) <;> simp at hc
    · exact mem_simple_shape0 _ _ _ _ _ (Or.inr (Or.inl rfl))
    · intro kv hkv
      exact mem_simple_shape0 _ _ _ _ _
        (Or.inr (Or.inr (List.mem_map_of_mem _ hkv)))
    · intro s2 m2 hs2 _ _ _
      exact absurd hs2 (by simp)
  case some.cons.some =>
    simp only at hps
    rcases hres : resolve s with e | m <;> rw [hres] at hps
    · exact absurd hps (by simp)
    · injection hps with hps
      subst hps
      refine ⟨rfl, ?_, ?_, ?_, ?_, ?_⟩
      · intro hs2 hhs2 h2 hmem
        injection hhs2 with he
        subst he
        exact mem_simple_shape _ _ _ _ _ _ (Or.inl (List.mem_map_of_mem _ hmem))
      · rintro (hc | hc) <;> simp at hc
      · exact mem_simple_shape _ _ _ _ _ _ (Or.inr (Or.inl rfl))
      · intro kv hkv
        exact mem_simple_shape _ _ _ _ _ _
          (Or.inr (Or.inr (Or.inl (List.mem_map_of_mem _ hkv))))
      · intro s2 m2 hs2 hm2 kv hkv
        injection hs2 with hs2
        subst hs2
        rw [hres] at hm2
        injection hm2 with hm2
        subst hm2
        exact mem_simple_shape _ _ _ _ _ _
          (Or.inr (Or.inr (Or.inr (List.mem_map_of_mem _ hkv))))

/-- Claim C9: a service definition without the `stackl_inventory_groups`
parameter skips fetch/partition/persist (no remote write, groups left
untouched) and is published as one group named after the service with its
declared hosts (or the synthetic `service + "_" + str(index)` host), its
infrastructure target, every provisioning parameter and every resolved
secret attached as group variables. -/
theorem c9_simple_publication (resolve : SecretResolver) (service : String)
    (index : Nat) (sd : ServiceDefinition) (stGroups : GroupAssignment)
    (w : List GroupAssignment) (ops : List InvOp) (g2 : GroupAssignment)
    (hnone : lookupParam sd.provisioning_parameters "stackl_inventory_groups" = none)
    (hrun : serviceStep resolve service index sd stGroups = .ok (w, ops, g2)) :
    w = [] ∧ g2 = stGroups ∧
    ops.head? = some (.addGroup service) ∧
    (∀ hs, sd.hosts = some hs → ∀ h ∈ hs, InvOp.addHost h service ∈ ops) ∧
    ((sd.hosts = none ∨ sd.hosts = some []) →
      InvOp.addHost (service ++ "_" ++ toString index) service ∈ ops) ∧
    InvOp.setVar service "infrastructure_target" (.str sd.infrastructure_target) ∈ ops ∧
    (∀ kv ∈ sd.provisioning_parameters, InvOp.setVar service kv.1 kv.2 ∈ ops) ∧
    (∀ s m, sd.secrets = some s → resolve s = .ok m →
      ∀ kv ∈ m, InvOp.setVar service kv.1 (.str kv.2) ∈ ops) := by
  unfold serviceStep at hrun
  rw [hnone] at hrun
  rcases hps : publishSimple resolve service index sd with e | ops0
  · rw [hps] at hrun
    exact absurd hrun (by simp)
  · rw [hps] at hrun
    simp only [Except.ok.injEq, Prod.mk.injEq] at hrun
    obtain ⟨hw, hops, hg⟩ := hrun
    obtain ⟨p1, p2, p3, p4, p5, p6⟩ := publishSimple_ok_spec _ _ _ _ _ hps
    subst hops
    exact ⟨hw.symm, hg.symm, p1, p2, p3, p4, p5, p6⟩

/-- Claim C9 witness: a service with one host, one parameter and no
secrets, without the grouped-provisioning parameter. -/
theorem c9_witness :
    serviceStep (fun s => .ok s) "svc" 0
        ⟨some ["h1"], [("os", .str "linux")], "tgt", none⟩ [] =
      .ok ([], [InvOp.addGroup "svc", InvOp.addHost "h1" "svc",
        InvOp.setVar "svc" "infrastructure_target" (.str "tgt"),
        InvOp.setVar "svc" "os" (.str "linux")], []) ∧
    InvOp.addHost "h1" "svc" ∈ [InvOp.addGroup "svc", InvOp.addHost "h1" "svc",
        InvOp.setVar "svc" "infrastructure_target" (.str "tgt"),
        InvOp.setVar "svc" "os" (.str "linux")] := by
  have h := c9_simple_publication (fun s => .ok s) "svc" 0
    ⟨some ["h1"], [("os", .str "linux")], "tgt", none⟩ [] []
    [InvOp.addGroup "svc", InvOp.addHost "h1" "svc",
      InvOp.setVar "svc" "infrastructure_target" (.str "tgt"),
      InvOp.setVar "svc" "os" (.str "linux")] [] (by decide) (by rfl)
  exact ⟨by rfl, h.2.2.2.1 ["h1"] rfl "h1" (by decide)⟩

/-- The full round trip behind claim C6: resolving the stripped base64
encoding of a string gives back the string with its trailing whitespace
removed by `rstrip`. -/
theorem decodeSecret_b64encodeNoPad (s : String) :
    decodeSecret (b64encodeNoPad s) = some (pyRstrip s) := by
  have hlt : ∀ b ∈ utf8Encode s.data, b < 256 := utf8Encode_lt s.data
  have hdata : (b64encodeNoPad s).data = b64encodeBody (utf8Encode s.data) := by
    show stripPadding (b64encode (utf8Encode s.data)) = _
    exact stripPadding_b64encode _ hlt
  unfold decodeSecret
  rw [hdata, b64decode_py_encodeBody _ hlt]
  simp only [utf8Decode_utf8Encode]
  rfl

/-- Claim C6, counterexample.  The string `"a "` (printable, ending in a
space) encodes to `"YSA"`; resolving it returns `"a"`, not the original
string: the resolver calls `.rstrip()` on the decoded text. -/
theorem c6_counterexample :
    b64encodeNoPad "a " = "YSA" ∧
    get_base64_secrets [("k", "YSA")] = .ok [("k", "a")] ∧
    ("a" : String) ≠ "a " := by
  refine ⟨by rfl, by rfl, by decide⟩

/-- Claim C6, amended.  For every UTF-8 string that survives `rstrip`
unchanged (no trailing whitespace), encoding it to base64, stripping the
padding and resolving through the base64 resolver returns the original
string; strings with trailing whitespace come back right-stripped. -/
theorem c6_amended (k s : String) (h : pyRstrip s = s) :
    get_base64_secrets [(k, b64encodeNoPad s)] = .ok [(k, s)] := by
  have hd := decodeSecret_b64encodeNoPad s
  rw [h] at hd
  simp only [get_base64_secrets, hd]

/-- Claim C6 witness: the spec scenario `"cGFzcw" → "pass"`. -/
theorem c6_witness :
    pyRstrip "pass" = "pass" ∧ b64encodeNoPad "pass" = "cGFzcw" ∧
    get_base64_secrets [("pw", b64encodeNoPad "pass")] = .ok [("pw", "pass")] :=
  ⟨by decide, by rfl, c6_amended "pw" "pass" (by decide)⟩

theorem base64_batch_aborts (secrets : List (String × String))
    (hbad : ∃ kv ∈ secrets, decodeSecret kv.2 = none) :
    get_base64_secrets secrets = .error (.parserError "Could not decode secret") := by
  induction secrets with
  | nil => simp at hbad
  | cons kv rest ih =>
    obtain ⟨k, sec⟩ := kv
    obtain ⟨kv2, hmem, hnone⟩ := hbad
    rcases List.mem_cons.mp hmem with heq | hmem2
    · subst heq
      have h2 : decodeSecret sec = none := hnone
      simp [get_base64_secrets, h2]
    · have hrest := ih ⟨kv2, hmem2, hnone⟩
      cases hd : decodeSecret sec <;> simp [get_base64_secrets, hd, hrest]

theorem conjur_batch_aborts (http : ConjurHttp) (address account token : String)
    (verify : PyVal) (secrets : List (String × String))
    (hbad : ∃ kv ∈ secrets, (pySplit kv.2 "!var").length ≤ 1) :
    get_conjur_secrets http address account token verify secrets =
      .error .indexError := by
  unfold get_conjur_secrets
  induction secrets with
  | nil => simp at hbad
  | cons kv rest ih =>
    obtain ⟨k, ref⟩ := kv
    obtain ⟨kv2, hmem, hshort⟩ := hbad
    rcases List.mem_cons.mp hmem with heq | hmem2
    · subst heq
      have h2 : (pySplit ref "!var").length ≤ 1 := hshort
      rcases hsp : pySplit ref "!var" with _ | ⟨p0, _ | ⟨p1, ps⟩⟩
      · simp [get_conjur_secretsGo, hsp]
      · simp [get_conjur_secretsGo, hsp]
      · rw [hsp] at h2; simp at h2
    · have hrest := ih ⟨kv2, hmem2, hshort⟩
      rcases hsp : pySplit ref "!var" with _ | ⟨p0, _ | ⟨p1, ps⟩⟩ <;>
        simp [get_conjur_secretsGo, hsp, hrest]

/-- Claim C7, counterexample.  Two batches whose sole entries are
undecodable for different backend-specific reasons — `"Y"` is rejected by
the base64 framing (one leftover character), while `"/w"` decodes to the
byte `0xFF` which is not UTF-8 — produce the identical constant error
`AnsibleParserError("Could not decode secret")`: the backend-specific
cause is not preserved. -/
theorem c7_counterexample :
    b64decode_py ("Y".data ++ ['=', '=', '=']) = none ∧
    (b64decode_py ("/w".data ++ ['=', '=', '=']) = some [255] ∧
      utf8Decode [255] = none) ∧
    get_base64_secrets [("a", "Y")] = .error (.parserError "Could not decode secret") ∧
    get_base64_secrets [("b", "/w")] =
      .error (.parserError "Could not decode secret") := by
  exact ⟨by rfl, ⟨by rfl, by rfl⟩, by rfl, by rfl⟩

/-- Claim C7, amended.  Resolution is all-or-nothing: one undecodable
entry makes the base64 resolver fail with the fixed
`AnsibleParserError("Could not decode secret")` (the cause is not
preserved) and no partial map is returned, and one reference without the
`!var` marker makes the Conjur resolver fail wholesale with the raw
`IndexError`. -/
theorem c7_amended :
    (∀ secrets : List (String × String), (∃ kv ∈ secrets, decodeSecret kv.2 = none) →
      get_base64_secrets secrets = .error (.parserError "Could not decode secret")) ∧
    (∀ (http : ConjurHttp) (address account token : String) (verify : PyVal)
      (secrets : List (String × String)),
      (∃ kv ∈ secrets, (pySplit kv.2 "!var").length ≤ 1) →
      get_conjur_secrets http address account token verify secrets =
        .error .indexError) :=
  ⟨fun secrets hbad => base64_batch_aborts secrets hbad,
   fun http address account token verify secrets hbad =>
     conjur_batch_aborts http address account token verify secrets hbad⟩

/-- Claim C7 witness: a batch with one good and one bad entry aborts
wholesale for both backends. -/
theorem c7_witness :
    get_base64_secrets [("good", "cGFzcw"), ("bad", "Y")] =
      .error (.parserError "Could not decode secret") ∧
    get_conjur_secrets (fun u _ _ => u) "http://c" "acc" "tok" (.pyBool true)
      [("good", "p !var x"), ("bad", "no marker")] = .error .indexError :=
  ⟨c7_amended.1 [("good", "cGFzcw"), ("bad", "Y")]
      ⟨("bad", "Y"), by decide, by rfl⟩,
   c7_amended.2 (fun u _ _ => u) "http://c" "acc" "tok" (.pyBool true)
      [("good", "p !var x"), ("bad", "no marker")]
      ⟨("bad", "no marker"), by decide, by rfl⟩⟩

/-- Claim C8: the string values `"true"`/`"false"` of the verify flag are
normalized to booleans under case-insensitive comparison before use; any
other value — a different string, a boolean, `None`, a number — is passed
through to the HTTP layer unchanged (`get_conjur_secrets` hands
`normalizeVerify verify` to every request). -/
theorem c8_verify_normalization :
    (∀ s : String, pyLower s = "true" → normalizeVerify (.pyStr s) = .pyBool true) ∧
    (∀ s : String, pyLower s = "false" → normalizeVerify (.pyStr s) = .pyBool false) ∧
    (∀ s : String, pyLower s ≠ "true" → pyLower s ≠ "false" →
      normalizeVerify (.pyStr s) = .pyStr s) ∧
    (∀ v : PyVal, (∀ s, v ≠ .pyStr s) → normalizeVerify v = v) ∧
    (∀ (http : ConjurHttp) (address account token : String) (verify : PyVal)
      (secrets : List (String × String)),
      get_conjur_secrets http address account token verify secrets =
        get_conjur_secretsGo http address account token (normalizeVerify verify)
          secrets) := by
  refine ⟨?_, ?_, ?_, ?_, ?_⟩
  · intro s h
    have hne : pyLower s ≠ "false" := by rw [h]; decide
    simp [normalizeVerify, h, hne]
  · intro s h
    simp [normalizeVerify, h]
  · intro s h1 h2
    simp [normalizeVerify, h1, h2]
  · intro v hv
    cases v with
    | pyStr s => exact absurd rfl (hv s)
    | pyBool b => rfl
    | pyNone => rfl
    | pyInt n => rfl
  · intro http address account token verify secrets
    rfl

/-- Claim C8 witness: concrete flag values. -/
theorem c8_witness :
    normalizeVerify (.pyStr "TRUE") = .pyBool true ∧
    normalizeVerify (.pyStr "False") = .pyBool false ∧
    normalizeVerify (.pyStr "yes") = .pyStr "yes" ∧
    normalizeVerify (.pyInt 1) = .pyInt 1 :=
  ⟨c8_verify_normalization.1 "TRUE" (by decide),
   c8_verify_normalization.2.1 "False" (by decide),
   c8_verify_normalization.2.2.1 "yes" (by decide) (by decide),
   c8_verify_normalization.2.2.2.1 (.pyInt 1) (fun s h => by cases h)⟩

/-- Claim C10: a Conjur batch containing a reference without the `!var`
marker — one whose split on `"!var"` yields no second piece — raises the
`IndexError` of `secret_path.split("!var")[1]` and returns no resolved
map for the batch. -/
theorem c10_conjur_bad_ref (http : ConjurHttp) (address account token : String)
    (verify : PyVal) (secrets : List (String × String))
    (hbad : ∃ kv ∈ secrets, (pySplit kv.2 "!var").length ≤ 1) :
    get_conjur_secrets http address account token verify secrets =
      .error .indexError :=
  conjur_batch_aborts http address account token verify secrets hbad

/-- Claim C10 witness: a batch with a marker-less reference. -/
theorem c10_witness :
    get_conjur_secrets (fun u _ _ => u) "http://c" "acc" "tok" (.pyStr "true")
      [("k", "no marker")] = .error .indexError :=
  c10_conjur_bad_ref (fun u _ _ => u) "http://c" "acc" "tok" (.pyStr "true")
    [("k", "no marker")] ⟨("k", "no marker"), by decide, by rfl⟩

end Stackl
